import Mathlib

/-!
Verification of the Sudoku engine in `SudokuGUI.py`.

The board is embedded as a function `Nat → Nat → Nat`: cell `(r, c)` of the
9×9 grid (for `r, c < 9`) holds `0` for an empty cell or a digit `1`‑`9`.
Python's in-place mutation is modelled by explicit state passing: each
operation that mutates the board returns the new board.

The solver (`solve_board`) shuffles the candidate digits at every recursive
call (`random.shuffle(digits)`).  The random stream is modelled as a
parameter `orders : Nat → List Nat`: the `k`-th recursive call that reaches
the shuffle uses `orders k` as its candidate order, and the call counter is
threaded through the recursion.  Theorems quantify over every `orders`
whose entries are permutations of `[1, …, 9]`, hence hold for every
sequence of random choices.  `random.shuffle(positions)` in the generator
is likewise modelled by quantifying over every permutation of the 81
positions.

The recursion of the Python solver terminates because every recursive call
fills one more empty cell; the embedding makes this explicit with a fuel
argument that starts at 81 (the total number of cells), which is proved
sufficient (`fuel ≥ number of empty cells` is maintained, so the fuel-0
branch is never reached on the inputs the theorems speak about).
-/

/-- A 9×9 Sudoku board: cell `(r, c)` is `0` (empty) or a digit 1-9.
Modelled as a total function; only cells with `r < 9` and `c < 9` matter. -/
def Board : Type := Nat → Nat → Nat

/-- The all-empty board (`[[0]*9]*9`), as built by `generate_solved_board`. -/
def emptyBoard : Board := fun _ _ => 0

/-- `board[r][c] = v`, the elementary mutation of the Python code. -/
def setCell (b : Board) (r c v : Nat) : Board :=
  fun r' c' => if r' = r ∧ c' = c then v else b r' c'

/-- All 81 positions in row-major order, the scan order of the Python
loops `for r in range(9): for c in range(9)`. -/
def allPositions : List (Nat × Nat) :=
  (List.range 9).flatMap (fun r => (List.range 9).map (fun c => (r, c)))

/-- The first empty cell in row-major scan order (the nested loops with
`break` in `solve_board` / `count_solutions`), if any. -/
def find_empty (b : Board) : Option (Nat × Nat) :=
  allPositions.find? (fun p => b p.1 p.2 == 0)

/-- `list(range(1, 10))`, the candidate digits before shuffling. -/
def digits19 : List Nat := [1, 2, 3, 4, 5, 6, 7, 8, 9]

/-- `is_valid_placement(board, row, col, num)` from `SudokuGUI.py`:
row scan, column scan, then the 3×3 box scan starting at
`(3*(row//3), 3*(col//3))`; any hit returns `False`. -/
def is_valid_placement (board : Board) (row col num : Nat) : Bool :=
  if (List.range 9).any (fun c => board row c == num) then false
  else if (List.range 9).any (fun r => board r col == num) then false
  else if (List.range' (3 * (row / 3)) 3).any (fun r =>
            (List.range' (3 * (col / 3)) 3).any (fun c => board r c == num)) then false
  else true

/-- The candidate loop of `solve_board`: for each `num` in the (shuffled)
digit list, if the placement is legal, place it and recurse (`recurse` is
the solver at one less fuel); on recursive failure undo the placement
(`board[row][col] = 0`) and try the next candidate.  The threaded `Nat` is
the call counter indexing the random stream. -/
def tryDigits (recurse : Nat → Board → Bool × Board × Nat) (r c : Nat) :
    Board → Nat → List Nat → Bool × Board × Nat
  | b, k, [] => (false, b, k)
  | b, k, num :: rest =>
    if is_valid_placement b r c num then
      match recurse k (setCell b r c num) with
      | (true, b', k') => (true, b', k')
      | (false, b', k') => tryDigits recurse r c (setCell b' r c 0) k' rest
    else tryDigits recurse r c b k rest

/-- Fueled body of `solve_board(board)`: find the first empty cell (if none,
the board is solved), then try the digits `orders k` (the shuffle of this
call) in order.  `fuel` only bounds the recursion depth; 81 is always
enough, as proved below. -/
def solveAux (orders : Nat → List Nat) : Nat → Nat → Board → Bool × Board × Nat
  | fuel, k, b =>
    match find_empty b with
    | none => (true, b, k)
    | some rc =>
      match fuel with
      | 0 => (false, b, k)
      | fuel' + 1 => tryDigits (solveAux orders fuel') rc.1 rc.2 b (k + 1) (orders k)

/-- `solve_board(board)`: returns the success flag and the final state of
the (in Python, mutated in place) board. -/
def solve_board (orders : Nat → List Nat) (b : Board) : Bool × Board :=
  ((solveAux orders 81 0 b).1, (solveAux orders 81 0 b).2.1)

/-- `generate_solved_board()`: clear the board and fill it by backtracking. -/
def generate_solved_board (orders : Nat → List Nat) : Board :=
  (solve_board orders emptyBoard).2

/-- Candidate loop of the `backtrack()` closure in `count_solutions`: digits
are tried in the fixed order 1-9; after each recursive call the placement is
undone unconditionally (`board[row][col] = 0`), also on the early-exit path. -/
def countDigits (recurse : Nat → Board → Nat × Board) (r c : Nat) :
    Nat → Board → List Nat → Nat × Board
  | cnt, b, [] => (cnt, b)
  | cnt, b, num :: rest =>
    if is_valid_placement b r c num then
      let res := recurse cnt (setCell b r c num)
      countDigits recurse r c res.1 (setCell res.2 r c 0) rest
    else countDigits recurse r c cnt b rest

/-- Fueled body of `backtrack()` in `count_solutions`: early exit once the
running count has reached `limit`; a board with no empty cell counts as one
solution; otherwise branch on the first empty cell over digits 1-9. -/
def countAux (limit : Nat) : Nat → Nat → Board → Nat × Board
  | fuel, cnt, b =>
    if limit ≤ cnt then (cnt, b)
    else
      match find_empty b with
      | none => (cnt + 1, b)
      | some rc =>
        match fuel with
        | 0 => (cnt, b)
        | fuel' + 1 => countDigits (countAux limit fuel') rc.1 rc.2 cnt b (List.range' 1 9)

/-- `count_solutions(board, limit)`: the number of solutions found, capped
at `limit` (the Python call sites use the default `limit = 2`). -/
def count_solutions (b : Board) (limit : Nat) : Nat :=
  (countAux limit 81 0 b).1

/-- The difficulty table `{"easy": 40, "medium": 50, "hard": 55}.get(d, 40)`
of `generate_puzzle`. -/
def cells_to_remove (difficulty : String) : Nat :=
  if difficulty = "easy" then 40
  else if difficulty = "medium" then 50
  else if difficulty = "hard" then 55
  else 40

/-- The removal loop of `generate_puzzle`: for each shuffled position, stop
if enough cells were removed; otherwise tentatively clear the cell; on every
5th accepted removal (`removed % 5 == 0`) keep the clear only if
`count_solutions` (limit 2, on a copy) returns exactly 1, restoring the
backup value otherwise; on other attempts accept the clear unconditionally.
Returns the final board and the number of accepted removals. -/
def removeLoop (target : Nat) : List (Nat × Nat) → Board → Nat → Board × Nat
  | [], b, removed => (b, removed)
  | p :: rest, b, removed =>
    if target ≤ removed then (b, removed)
    else
      let backup := b p.1 p.2
      let cleared := setCell b p.1 p.2 0
      if removed % 5 = 0 then
        if count_solutions cleared 2 = 1 then removeLoop target rest cleared (removed + 1)
        else removeLoop target rest (setCell cleared p.1 p.2 backup) removed
      else removeLoop target rest cleared (removed + 1)

/-- `generate_puzzle()`: build a solved board, save it as the solution,
run the removal loop over the shuffled positions, and mark the remaining
non-empty cells as `original_cells` (the givens).  Returns
`(puzzle, solution, givens)`. -/
def generate_puzzle (orders : Nat → List Nat) (positions : List (Nat × Nat))
    (difficulty : String) : Board × Board × Finset (Nat × Nat) :=
  let solution := generate_solved_board orders
  let pr := removeLoop (cells_to_remove difficulty) positions solution 0
  (pr.1, solution,
    (Finset.range 9 ×ˢ Finset.range 9).filter (fun p => pr.1 p.1 p.2 ≠ 0))

/-- `is_board_filled()`: no cell is 0. -/
def is_board_filled (b : Board) : Bool :=
  (List.range 9).all fun r => (List.range 9).all fun c => !(b r c == 0)

/-- `is_unit_valid(unit)`: `sorted(unit) == list(range(1, 10))`. -/
def is_unit_valid (unit : List Nat) : Bool :=
  unit.insertionSort (· ≤ ·) == digits19

/-- Row `r` of the board, `[board[row][col] for col in range(9)]`. -/
def rowList (b : Board) (r : Nat) : List Nat :=
  (List.range 9).map (fun c => b r c)

/-- Column `c` of the board, `[board[row][col] for row in range(9)]`. -/
def colList (b : Board) (c : Nat) : List Nat :=
  (List.range 9).map (fun r => b r c)

/-- The 3×3 box with top-left corner `(br, bc)`, in the row-major order the
Python code appends its values. -/
def boxList (b : Board) (br bc : Nat) : List Nat :=
  (List.range' br 3).flatMap (fun r => (List.range' bc 3).map (fun c => b r c))

/-- `is_board_valid()`: every row, column and box passes `is_unit_valid`;
box corners range over `range(0, 9, 3)` in both coordinates. -/
def is_board_valid (b : Board) : Bool :=
  ((List.range 9).all fun r => is_unit_valid (rowList b r)) &&
  ((List.range 9).all fun c => is_unit_valid (colList b c)) &&
  ((List.range' 0 3 3).all fun br => (List.range' 0 3 3).all fun bc =>
     is_unit_valid (boxList b br bc))

/-! ### Specification-side vocabulary

The following definitions give the claims' words a formal meaning; they are
used only in theorem statements and proofs, never by the embedded code. -/

/-- `num` already appears somewhere in row `row`. -/
def appearsInRow (b : Board) (row num : Nat) : Prop :=
  ∃ c, c < 9 ∧ b row c = num

/-- `num` already appears somewhere in column `col`. -/
def appearsInCol (b : Board) (col num : Nat) : Prop :=
  ∃ r, r < 9 ∧ b r col = num

/-- `num` already appears somewhere in the 3×3 box containing `(row, col)`. -/
def appearsInBox (b : Board) (row col num : Nat) : Prop :=
  ∃ r c, 3 * (row / 3) ≤ r ∧ r < 3 * (row / 3) + 3 ∧
    3 * (col / 3) ≤ c ∧ c < 3 * (col / 3) + 3 ∧ b r c = num

/-- Unit-consistency: no two distinct cells of a common row, column or box
hold the same nonzero digit.  This is the precondition the specification
imposes on boards passed to the solver and the counter. -/
def consistent (b : Board) : Prop :=
  ∀ r1, r1 < 9 → ∀ c1, c1 < 9 → ∀ r2, r2 < 9 → ∀ c2, c2 < 9 →
    (r1, c1) ≠ (r2, c2) →
    (r1 = r2 ∨ c1 = c2 ∨ (r1 / 3 = r2 / 3 ∧ c1 / 3 = c2 / 3)) →
    b r1 c1 ≠ 0 → b r1 c1 ≠ b r2 c2

/-- Every cell of the 9×9 area holds a value in 0-9 (0 = empty, 1-9 digits),
the data model's range invariant. -/
def inRange9 (b : Board) : Prop :=
  ∀ r, r < 9 → ∀ c, c < 9 → b r c ≤ 9

/-- `b'` extends `b`: every filled cell of `b` keeps its value in `b'`. -/
def Extends (b b' : Board) : Prop :=
  ∀ r, r < 9 → ∀ c, c < 9 → b r c ≠ 0 → b' r c = b r c

/-- `s` is a complete valid solution of the (partial) board `b`. -/
def isSolutionOf (s b : Board) : Prop :=
  is_board_valid s = true ∧ Extends b s

/-- Digit grids: total assignments of a digit (represented by `Fin 9`,
digit = value + 1) to each of the 81 cells.  A finite type used to count
the distinct complete solutions of a board. -/
def G9 : Type := Fin 9 → Fin 9 → Fin 9

instance : Fintype G9 := by unfold G9; infer_instance

instance : DecidableEq G9 := by unfold G9; infer_instance

/-- The board described by a digit grid: digit `g r c + 1` inside the 9×9
area and `0` outside. -/
def gBoard (g : G9) : Board := fun r c =>
  if hr : r < 9 then if hc : c < 9 then (g ⟨r, hr⟩ ⟨c, hc⟩).val + 1 else 0 else 0

/-- The digit grid `g` completes the board `b`. -/
def isCompletionG (b : Board) (g : G9) : Prop := isSolutionOf (gBoard g) b

instance isCompletionG_decidable (b : Board) (g : G9) : Decidable (isCompletionG b g) := by
  unfold isCompletionG isSolutionOf Extends
  infer_instance

/-- The number of distinct complete valid solutions of `b`. -/
def numSolutions (b : Board) : Nat :=
  (Finset.univ.filter (fun g : G9 => isCompletionG b g)).card

/-- Number of empty cells of the 9×9 area. -/
def numEmpty (b : Board) : Nat :=
  allPositions.countP (fun p => b p.1 p.2 == 0)

/-- Number of filled cells of the 9×9 area. -/
def numFilled (b : Board) : Nat :=
  allPositions.countP (fun p => !(b p.1 p.2 == 0))

/-- The hand-checked solved grid of the specification's Scenario B, used as
a witness that the empty board has a completion. -/
def scenarioB : Board := fun r c =>
  (([[5,3,4,6,7,8,9,1,2],[6,7,2,1,9,5,3,4,8],[1,9,8,3,4,2,5,6,7],
     [8,5,9,7,6,1,4,2,3],[4,2,6,8,5,3,7,9,1],[7,1,3,9,2,4,8,5,6],
     [9,6,1,5,3,7,2,8,4],[2,8,7,4,1,9,6,3,5],[3,4,5,2,8,6,1,7,9]].getD r []).getD c 0)

/-! ### Basic lemmas about positions, cells and counting -/

theorem mem_allPositions {p : Nat × Nat} : p ∈ allPositions ↔ p.1 < 9 ∧ p.2 < 9 := by
  cases p with
  | mk r c =>
    simp [allPositions, List.mem_flatMap, List.mem_map, List.mem_range]

theorem allPositions_nodup : allPositions.Nodup := by decide

theorem allPositions_length : allPositions.length = 81 := by decide

theorem setCell_same (b : Board) (r c v : Nat) : setCell b r c v r c = v := by
  simp [setCell]

theorem setCell_of_ne (b : Board) (r c v r' c' : Nat) (h : ¬(r' = r ∧ c' = c)) :
    setCell b r c v r' c' = b r' c' := by
  simp [setCell, h]

theorem setCell_cancel (b : Board) (r c v w : Nat) :
    setCell (setCell b r c v) r c w = setCell b r c w := by
  funext r' c'
  by_cases h : r' = r ∧ c' = c
  · obtain ⟨rfl, rfl⟩ := h
    rw [setCell_same, setCell_same]
  · rw [setCell_of_ne _ _ _ _ _ _ h, setCell_of_ne _ _ _ _ _ _ h,
      setCell_of_ne _ _ _ _ _ _ h]

theorem setCell_self (b : Board) (r c : Nat) : setCell b r c (b r c) = b := by
  funext r' c'
  by_cases h : r' = r ∧ c' = c
  · obtain ⟨rfl, rfl⟩ := h
    rw [setCell_same]
  · rw [setCell_of_ne _ _ _ _ _ _ h]

theorem setCell_restore (b : Board) (r c v : Nat) (h : b r c = 0) :
    setCell (setCell b r c v) r c 0 = b := by
  rw [setCell_cancel, ← h, setCell_self]

theorem find_empty_eq_none_iff {b : Board} :
    find_empty b = none ↔ ∀ r, r < 9 → ∀ c, c < 9 → b r c ≠ 0 := by
  rw [find_empty, List.find?_eq_none]
  constructor
  · intro h r hr c hc
    have := h (r, c) (mem_allPositions.mpr ⟨hr, hc⟩)
    simpa using this
  · intro h p hp
    have hm := mem_allPositions.mp hp
    simpa using h p.1 hm.1 p.2 hm.2

theorem find_empty_some {b : Board} {r c : Nat} (h : find_empty b = some (r, c)) :
    r < 9 ∧ c < 9 ∧ b r c = 0 := by
  have hmem := List.mem_of_find?_eq_some h
  have hp := List.find?_some h
  have hm := mem_allPositions.mp hmem
  refine ⟨hm.1, hm.2, ?_⟩
  simpa using hp

theorem is_board_filled_iff {b : Board} :
    is_board_filled b = true ↔ ∀ r, r < 9 → ∀ c, c < 9 → b r c ≠ 0 := by
  simp [is_board_filled, List.all_eq_true, List.mem_range]

theorem find_empty_none_iff_filled {b : Board} :
    find_empty b = none ↔ is_board_filled b = true := by
  rw [find_empty_eq_none_iff, is_board_filled_iff]

theorem countP_congr_mem {α : Type} {f g : α → Bool} :
    ∀ {l : List α}, (∀ q ∈ l, f q = g q) → l.countP f = l.countP g := by
  intro l
  induction l with
  | nil => intro _; rfl
  | cons a t ih =>
    intro h
    rw [List.countP_cons, List.countP_cons, ih (fun q hq => h q (List.mem_cons_of_mem a hq)),
      h a (List.mem_cons_self a t)]

theorem countP_flip_one {α : Type} [DecidableEq α] {f g : α → Bool} {p : α} :
    ∀ {l : List α}, l.Nodup → p ∈ l → (∀ q ∈ l, q ≠ p → f q = g q) →
      f p = true → g p = false → l.countP f = l.countP g + 1 := by
  intro l
  induction l with
  | nil => intro _ hp; cases hp
  | cons a t ih =>
    intro hn hp hothers hfp hgp
    rw [List.countP_cons, List.countP_cons]
    rcases List.mem_cons.mp hp with h | hpt
    · subst h
      have hnt : p ∉ t := (List.nodup_cons.mp hn).1
      have ht : t.countP f = t.countP g :=
        countP_congr_mem (fun q hq =>
          hothers q (List.mem_cons_of_mem p hq) (fun he => hnt (he ▸ hq)))
      rw [ht, hfp, hgp]
      simp
    · have hap : a ≠ p := by
        intro he
        exact (List.nodup_cons.mp hn).1 (he ▸ hpt)
      have ha : f a = g a := hothers a (List.mem_cons_self a t) hap
      rw [ih (List.nodup_cons.mp hn).2 hpt
        (fun q hq hq' => hothers q (List.mem_cons_of_mem a hq) hq') hfp hgp, ha]
      omega

theorem numEmpty_le_81 (b : Board) : numEmpty b ≤ 81 := by
  have h := @List.countP_le_length (Nat × Nat) (fun p => b p.1 p.2 == 0) allPositions
  rw [allPositions_length] at h
  exact h

theorem numEmpty_eq_zero_iff {b : Board} : numEmpty b = 0 ↔ find_empty b = none := by
  rw [numEmpty, List.countP_eq_zero, find_empty, List.find?_eq_none]

theorem numEmpty_setCell {b : Board} {r c v : Nat} (hr : r < 9) (hc : c < 9)
    (h0 : b r c = 0) (hv : v ≠ 0) :
    numEmpty b = numEmpty (setCell b r c v) + 1 := by
  rw [numEmpty, numEmpty]
  refine countP_flip_one allPositions_nodup ((@mem_allPositions (r, c)).mpr ⟨hr, hc⟩) ?_ ?_ ?_
  · intro q _ hq
    have : ¬(q.1 = r ∧ q.2 = c) := by
      intro ⟨h1, h2⟩
      exact hq (Prod.ext h1 h2)
    rw [setCell_of_ne _ _ _ _ _ _ this]
  · simpa using h0
  · simp [setCell_same, hv]

theorem numFilled_setCell_zero {b : Board} {r c : Nat} (hr : r < 9) (hc : c < 9)
    (h0 : b r c ≠ 0) :
    numFilled b = numFilled (setCell b r c 0) + 1 := by
  rw [numFilled, numFilled]
  refine countP_flip_one allPositions_nodup ((@mem_allPositions (r, c)).mpr ⟨hr, hc⟩) ?_ ?_ ?_
  · intro q _ hq
    have : ¬(q.1 = r ∧ q.2 = c) := by
      intro ⟨h1, h2⟩
      exact hq (Prod.ext h1 h2)
    rw [setCell_of_ne _ _ _ _ _ _ this]
  · simpa using h0
  · simp [setCell_same]

theorem numFilled_of_filled {b : Board} (h : is_board_filled b = true) : numFilled b = 81 := by
  have hful : ∀ p ∈ allPositions, (!(b p.1 p.2 == 0)) = true := by
    intro p hp
    have hm := mem_allPositions.mp hp
    have := is_board_filled_iff.mp h p.1 hm.1 p.2 hm.2
    simpa using this
  calc numFilled b = allPositions.countP (fun _ => true) := countP_congr_mem
        (fun q hq => by rw [hful q hq])
    _ = 81 := by rw [List.countP_eq_length.mpr (fun a _ => rfl), allPositions_length]

theorem mem_digits19 {x : Nat} : x ∈ digits19 ↔ 1 ≤ x ∧ x ≤ 9 := by
  simp [digits19]
  omega

/-! ### Characterisation of the constraint checker -/

theorem anyRow_iff {b : Board} {row num : Nat} :
    ((List.range 9).any fun c => b row c == num) = true ↔ appearsInRow b row num := by
  simp [appearsInRow, List.any_eq_true, List.mem_range]

theorem anyCol_iff {b : Board} {col num : Nat} :
    ((List.range 9).any fun r => b r col == num) = true ↔ appearsInCol b col num := by
  simp [appearsInCol, List.any_eq_true, List.mem_range]

theorem anyBox_iff {b : Board} {row col num : Nat} :
    ((List.range' (3 * (row / 3)) 3).any fun r =>
      (List.range' (3 * (col / 3)) 3).any fun c => b r c == num) = true ↔
      appearsInBox b row col num := by
  simp only [List.any_eq_true, List.mem_range', beq_iff_eq]
  constructor
  · rintro ⟨r', ⟨i, hi, rfl⟩, c', ⟨j, hj, rfl⟩, h⟩
    exact ⟨3 * (row / 3) + 1 * i, 3 * (col / 3) + 1 * j,
      by omega, by omega, by omega, by omega, h⟩
  · rintro ⟨r', c', h1, h2, h3, h4, h⟩
    exact ⟨r', ⟨r' - 3 * (row / 3), by omega, by omega⟩,
      c', ⟨c' - 3 * (col / 3), by omega, by omega⟩, h⟩

theorem is_valid_placement_eq_not_or (b : Board) (row col num : Nat) :
    is_valid_placement b row col num =
      !(((List.range 9).any fun c => b row c == num) ||
        ((List.range 9).any fun r => b r col == num) ||
        ((List.range' (3 * (row / 3)) 3).any fun r =>
          (List.range' (3 * (col / 3)) 3).any fun c => b r c == num)) := by
  rw [is_valid_placement]
  cases h1 : ((List.range 9).any fun c => b row c == num) <;>
    cases h2 : ((List.range 9).any fun r => b r col == num) <;>
      cases h3 : ((List.range' (3 * (row / 3)) 3).any fun r =>
        (List.range' (3 * (col / 3)) 3).any fun c => b r c == num) <;> simp

theorem is_valid_placement_false_iff (b : Board) (row col num : Nat) :
    is_valid_placement b row col num = false ↔
      appearsInRow b row num ∨ appearsInCol b col num ∨ appearsInBox b row col num := by
  rw [is_valid_placement_eq_not_or]
  simp only [Bool.not_eq_false', Bool.or_eq_true, anyRow_iff, anyCol_iff, anyBox_iff]
  rw [or_assoc]

theorem is_valid_placement_true_iff (b : Board) (row col num : Nat) :
    is_valid_placement b row col num = true ↔
      ¬appearsInRow b row num ∧ ¬appearsInCol b col num ∧ ¬appearsInBox b row col num := by
  rw [← Bool.not_eq_false, is_valid_placement_false_iff]
  tauto

/-- Placing a legal nonzero digit in an empty cell preserves unit-consistency. -/
theorem consistent_setCell {b : Board} {r c num : Nat} (hb : consistent b)
    (hr : r < 9) (hc : c < 9) (h0 : b r c = 0)
    (hleg : is_valid_placement b r c num = true) :
    consistent (setCell b r c num) := by
  rw [is_valid_placement_true_iff] at hleg
  obtain ⟨hrow, hcol, hbox⟩ := hleg
  intro r1 h1 c1 h2 r2 h3 c2 h4 hne hunit hz
  by_cases e1 : r1 = r ∧ c1 = c
  · have e2 : ¬(r2 = r ∧ c2 = c) := by
      intro he
      exact hne (by rw [e1.1, e1.2, he.1, he.2])
    rw [setCell_of_ne _ _ _ _ _ _ e2]
    obtain ⟨rfl, rfl⟩ := e1
    rw [setCell_same]
    intro heq
    rcases hunit with h | h | h
    · exact hrow ⟨c2, h4, by rw [h]; exact heq.symm⟩
    · exact hcol ⟨r2, h3, by rw [h]; exact heq.symm⟩
    · exact hbox ⟨r2, c2, by omega, by omega, by omega, by omega, heq.symm⟩
  · by_cases e2 : r2 = r ∧ c2 = c
    · obtain ⟨rfl, rfl⟩ := e2
      rw [setCell_of_ne _ _ _ _ _ _ e1] at hz ⊢
      rw [setCell_same]
      intro heq
      rcases hunit with h | h | h
      · exact hrow ⟨c1, h2, by rw [← h]; exact heq⟩
      · exact hcol ⟨r1, h1, by rw [← h]; exact heq⟩
      · exact hbox ⟨r1, c1, by omega, by omega, by omega, by omega, heq⟩
    · rw [setCell_of_ne _ _ _ _ _ _ e1] at hz ⊢
      rw [setCell_of_ne _ _ _ _ _ _ e2]
      exact hb r1 h1 c1 h2 r2 h3 c2 h4 hne hunit hz

/-- Placing a digit at most 9 in an empty cell preserves the range invariant. -/
theorem inRange9_setCell {b : Board} {r c num : Nat} (hb : inRange9 b) (hnum : num ≤ 9) :
    inRange9 (setCell b r c num) := by
  intro r' hr' c' hc'
  by_cases h : r' = r ∧ c' = c
  · obtain ⟨rfl, rfl⟩ := h
    rw [setCell_same]; exact hnum
  · rw [setCell_of_ne _ _ _ _ _ _ h]
    exact hb r' hr' c' hc'

theorem inRange9_setCell_zero {b : Board} {r c : Nat} (hb : inRange9 b) :
    inRange9 (setCell b r c 0) := inRange9_setCell hb (by omega)

theorem Extends_refl (b : Board) : Extends b b := fun _ _ _ _ _ => rfl

theorem Extends_trans {b1 b2 b3 : Board} (h1 : Extends b1 b2) (h2 : Extends b2 b3) :
    Extends b1 b3 := by
  intro r hr c hc hz
  rw [h2 r hr c hc (by rw [h1 r hr c hc hz]; exact hz), h1 r hr c hc hz]

theorem Extends_setCell {b : Board} {r c v : Nat} (h0 : b r c = 0) :
    Extends b (setCell b r c v) := by
  intro r' hr' c' hc' hz
  have hne : ¬(r' = r ∧ c' = c) := by
    intro ⟨rfl, rfl⟩
    exact hz h0
  rw [setCell_of_ne _ _ _ _ _ _ hne]

/-! ### Units of the board: rows, columns, boxes -/

/-- Positions of row `r`, in scan order. -/
def rowPositions (r : Nat) : List (Nat × Nat) :=
  (List.range 9).map (fun c => (r, c))

/-- Positions of column `c`, in scan order. -/
def colPositions (c : Nat) : List (Nat × Nat) :=
  (List.range 9).map (fun r => (r, c))

/-- Positions of the 3×3 box with corner `(br, bc)`, in scan order. -/
def boxPositions (br bc : Nat) : List (Nat × Nat) :=
  (List.range' br 3).flatMap (fun r => (List.range' bc 3).map (fun c => (r, c)))

theorem rowList_eq_map (b : Board) (r : Nat) :
    rowList b r = (rowPositions r).map (fun p => b p.1 p.2) := by
  simp [rowList, rowPositions, List.map_map, Function.comp]

theorem colList_eq_map (b : Board) (c : Nat) :
    colList b c = (colPositions c).map (fun p => b p.1 p.2) := by
  simp [colList, colPositions, List.map_map, Function.comp]

theorem boxPositions_eq (br bc : Nat) :
    boxPositions br bc = [(br, bc), (br, bc + 1), (br, bc + 2),
      (br + 1, bc), (br + 1, bc + 1), (br + 1, bc + 2),
      (br + 2, bc), (br + 2, bc + 1), (br + 2, bc + 2)] := by
  simp [boxPositions, List.range']

theorem boxList_eq_map (b : Board) (br bc : Nat) :
    boxList b br bc = (boxPositions br bc).map (fun p => b p.1 p.2) := by
  simp [boxList, boxPositions, List.map_flatMap, List.map_map, Function.comp_def]

theorem boxPositions_nodup (br bc : Nat) : (boxPositions br bc).Nodup := by
  rw [boxPositions_eq]
  simp [List.nodup_cons, List.mem_cons, Prod.mk.injEq]

theorem mem_boxPositions {p : Nat × Nat} {br bc : Nat} :
    p ∈ boxPositions br bc ↔ br ≤ p.1 ∧ p.1 < br + 3 ∧ bc ≤ p.2 ∧ p.2 < bc + 3 := by
  cases p with
  | mk r c =>
    rw [boxPositions_eq]
    simp [Prod.mk.injEq]
    omega

theorem rowPositions_nodup (r : Nat) : (rowPositions r).Nodup := by
  refine List.Nodup.map_on ?_ (List.nodup_range 9)
  intro x _ y _ h
  exact congrArg Prod.snd h

theorem colPositions_nodup (c : Nat) : (colPositions c).Nodup := by
  refine List.Nodup.map_on ?_ (List.nodup_range 9)
  intro x _ y _ h
  exact congrArg Prod.fst h

theorem mem_rowPositions {p : Nat × Nat} {r : Nat} :
    p ∈ rowPositions r ↔ p.1 = r ∧ p.2 < 9 := by
  cases p with
  | mk a b =>
    simp only [rowPositions, List.mem_map, List.mem_range, Prod.mk.injEq]
    constructor
    · rintro ⟨c, hc, rfl, rfl⟩
      exact ⟨rfl, hc⟩
    · rintro ⟨rfl, hb⟩
      exact ⟨b, hb, rfl, rfl⟩

theorem mem_colPositions {p : Nat × Nat} {c : Nat} :
    p ∈ colPositions c ↔ p.1 < 9 ∧ p.2 = c := by
  cases p with
  | mk a b =>
    simp only [colPositions, List.mem_map, List.mem_range, Prod.mk.injEq]
    constructor
    · rintro ⟨r, hr, rfl, rfl⟩
      exact ⟨hr, rfl⟩
    · rintro ⟨ha, rfl⟩
      exact ⟨a, ha, rfl, rfl⟩

theorem digits19_nodup : digits19.Nodup := by decide

theorem digits19_sorted : List.Sorted (· ≤ ·) digits19 := by decide

theorem is_unit_valid_iff_perm {u : List Nat} :
    is_unit_valid u = true ↔ u.Perm digits19 := by
  rw [is_unit_valid, beq_iff_eq]
  constructor
  · intro h
    have hp := List.perm_insertionSort (· ≤ ·) u
    rw [h] at hp
    exact hp.symm
  · intro h
    exact List.eq_of_perm_of_sorted ((List.perm_insertionSort (· ≤ ·) u).trans h)
      (List.sorted_insertionSort (· ≤ ·) u) digits19_sorted

/-- The box corners checked by `is_board_valid` (`range(0, 9, 3)`). -/
theorem mem_boxCorners {x : Nat} : x ∈ List.range' 0 3 3 ↔ x = 0 ∨ x = 3 ∨ x = 6 := by
  constructor
  · intro h
    rcases List.mem_range'.mp h with ⟨i, hi, rfl⟩
    omega
  · intro h
    refine List.mem_range'.mpr ?_
    rcases h with rfl | rfl | rfl
    · exact ⟨0, by omega, by omega⟩
    · exact ⟨1, by omega, by omega⟩
    · exact ⟨2, by omega, by omega⟩

theorem valid_row {b : Board} (h : is_board_valid b = true) {r : Nat} (hr : r < 9) :
    (rowList b r).Perm digits19 := by
  rw [is_board_valid, Bool.and_eq_true, Bool.and_eq_true] at h
  exact is_unit_valid_iff_perm.mp
    (List.all_eq_true.mp h.1.1 r (List.mem_range.mpr hr))

theorem valid_col {b : Board} (h : is_board_valid b = true) {c : Nat} (hc : c < 9) :
    (colList b c).Perm digits19 := by
  rw [is_board_valid, Bool.and_eq_true, Bool.and_eq_true] at h
  exact is_unit_valid_iff_perm.mp
    (List.all_eq_true.mp h.1.2 c (List.mem_range.mpr hc))

theorem valid_box {b : Board} (h : is_board_valid b = true) {br bc : Nat}
    (hbr : br = 0 ∨ br = 3 ∨ br = 6) (hbc : bc = 0 ∨ bc = 3 ∨ bc = 6) :
    (boxList b br bc).Perm digits19 := by
  rw [is_board_valid, Bool.and_eq_true, Bool.and_eq_true] at h
  exact is_unit_valid_iff_perm.mp
    (List.all_eq_true.mp (List.all_eq_true.mp h.2 br (mem_boxCorners.mpr hbr))
      bc (mem_boxCorners.mpr hbc))

theorem valid_of_units {b : Board}
    (hrow : ∀ r, r < 9 → (rowList b r).Perm digits19)
    (hcol : ∀ c, c < 9 → (colList b c).Perm digits19)
    (hbox : ∀ br bc, (br = 0 ∨ br = 3 ∨ br = 6) → (bc = 0 ∨ bc = 3 ∨ bc = 6) →
      (boxList b br bc).Perm digits19) :
    is_board_valid b = true := by
  rw [is_board_valid, Bool.and_eq_true, Bool.and_eq_true]
  refine ⟨⟨List.all_eq_true.mpr ?_, List.all_eq_true.mpr ?_⟩, List.all_eq_true.mpr ?_⟩
  · intro r hr
    exact is_unit_valid_iff_perm.mpr (hrow r (List.mem_range.mp hr))
  · intro c hc
    exact is_unit_valid_iff_perm.mpr (hcol c (List.mem_range.mp hc))
  · intro br hbr
    refine List.all_eq_true.mpr ?_
    intro bc hbc
    exact is_unit_valid_iff_perm.mpr
      (hbox br bc (mem_boxCorners.mp hbr) (mem_boxCorners.mp hbc))

/-! ### Validity, consistency and filled boards -/

/-- Nine distinct positions whose values are pairwise distinct digits 1-9
yield a unit that is a permutation of 1-9. -/
theorem perm_digits19_of (l : List (Nat × Nat)) (f : Nat × Nat → Nat)
    (hnd : l.Nodup) (hlen : l.length = 9)
    (hval : ∀ p ∈ l, 1 ≤ f p ∧ f p ≤ 9)
    (hinj : ∀ p ∈ l, ∀ q ∈ l, p ≠ q → f p ≠ f q) :
    (l.map f).Perm digits19 := by
  have hmnd : (l.map f).Nodup := by
    refine List.Nodup.map_on ?_ hnd
    intro x hx y hy hxy
    by_contra hne
    exact hinj x hx y hy hne hxy
  have hsub : l.map f ⊆ digits19 := by
    intro x hx
    obtain ⟨p, hp, rfl⟩ := List.mem_map.mp hx
    exact mem_digits19.mpr (hval p hp)
  refine (List.Nodup.subperm hmnd hsub).perm_of_length_le ?_
  rw [List.length_map, hlen]
  decide

/-- A valid board has no repeated digit in any row, column or box. -/
theorem valid_consistent {b : Board} (h : is_board_valid b = true) : consistent b := by
  have hsym : ∀ g : Nat → Nat, Symmetric (fun x y : Nat => g x ≠ g y) :=
    fun g x y hxy he => hxy he.symm
  intro r1 h1 c1 h2 r2 h3 c2 h4 hne hunit _
  rcases hunit with he | he | he
  · subst he
    have hnd : (rowList b r1).Nodup :=
      (valid_row h h1).nodup_iff.mpr digits19_nodup
    simp only [rowList] at hnd
    have hpw := List.pairwise_map.mp hnd
    have hcc : c1 ≠ c2 := fun hc => hne (by rw [hc])
    exact hpw.forall (hsym (fun c => b r1 c))
      (List.mem_range.mpr h2) (List.mem_range.mpr h4) hcc
  · subst he
    have hnd : (colList b c1).Nodup :=
      (valid_col h h2).nodup_iff.mpr digits19_nodup
    simp only [colList] at hnd
    have hpw := List.pairwise_map.mp hnd
    have hrr : r1 ≠ r2 := fun hr => hne (by rw [hr])
    exact hpw.forall (hsym (fun r => b r c1))
      (List.mem_range.mpr h1) (List.mem_range.mpr h3) hrr
  · have hbr : 3 * (r1 / 3) = 0 ∨ 3 * (r1 / 3) = 3 ∨ 3 * (r1 / 3) = 6 := by omega
    have hbc : 3 * (c1 / 3) = 0 ∨ 3 * (c1 / 3) = 3 ∨ 3 * (c1 / 3) = 6 := by omega
    have hnd : (boxList b (3 * (r1 / 3)) (3 * (c1 / 3))).Nodup :=
      (valid_box h hbr hbc).nodup_iff.mpr digits19_nodup
    rw [boxList_eq_map] at hnd
    have hpw := List.pairwise_map.mp hnd
    have hm1 : (r1, c1) ∈ boxPositions (3 * (r1 / 3)) (3 * (c1 / 3)) :=
      mem_boxPositions.mpr ⟨by omega, by omega, by omega, by omega⟩
    have hm2 : (r2, c2) ∈ boxPositions (3 * (r1 / 3)) (3 * (c1 / 3)) :=
      mem_boxPositions.mpr ⟨by omega, by omega, by omega, by omega⟩
    have hsym2 : Symmetric (fun p q : Nat × Nat => b p.1 p.2 ≠ b q.1 q.2) :=
      fun p q hpq he => hpq he.symm
    exact hpw.forall hsym2 hm1 hm2 hne

/-- Every cell of a valid board holds a digit 1-9. -/
theorem valid_entries {b : Board} (h : is_board_valid b = true) {r c : Nat}
    (hr : r < 9) (hc : c < 9) : 1 ≤ b r c ∧ b r c ≤ 9 := by
  have hp := valid_row h hr
  have hmem : b r c ∈ rowList b r := by
    simp only [rowList]
    exact List.mem_map.mpr ⟨c, List.mem_range.mpr hc, rfl⟩
  exact mem_digits19.mp (hp.subset hmem)

/-- A completely filled, unit-consistent board with entries in range is valid. -/
theorem valid_of_filled_consistent {b : Board} (hf : is_board_filled b = true)
    (hc : consistent b) (hr9 : inRange9 b) : is_board_valid b = true := by
  have hfil := is_board_filled_iff.mp hf
  apply valid_of_units
  · intro r hr
    rw [rowList_eq_map]
    refine perm_digits19_of _ _ (rowPositions_nodup r) (by simp [rowPositions]) ?_ ?_
    · intro p hp
      obtain ⟨hp1, hp2⟩ := mem_rowPositions.mp hp
      have h0 := hfil p.1 (by omega) p.2 hp2
      have h9 := hr9 p.1 (by omega) p.2 hp2
      omega
    · intro p hp q hq hpq
      obtain ⟨hp1, hp2⟩ := mem_rowPositions.mp hp
      obtain ⟨hq1, hq2⟩ := mem_rowPositions.mp hq
      exact hc p.1 (by omega) p.2 hp2 q.1 (by omega) q.2 hq2
        (by cases p; cases q; simpa using hpq) (Or.inl (by omega))
        (hfil p.1 (by omega) p.2 hp2)
  · intro c hcl
    rw [colList_eq_map]
    refine perm_digits19_of _ _ (colPositions_nodup c) (by simp [colPositions]) ?_ ?_
    · intro p hp
      obtain ⟨hp1, hp2⟩ := mem_colPositions.mp hp
      have h0 := hfil p.1 hp1 p.2 (by omega)
      have h9 := hr9 p.1 hp1 p.2 (by omega)
      omega
    · intro p hp q hq hpq
      obtain ⟨hp1, hp2⟩ := mem_colPositions.mp hp
      obtain ⟨hq1, hq2⟩ := mem_colPositions.mp hq
      exact hc p.1 hp1 p.2 (by omega) q.1 hq1 q.2 (by omega)
        (by cases p; cases q; simpa using hpq) (Or.inr (Or.inl (by omega)))
        (hfil p.1 hp1 p.2 (by omega))
  · intro br bc hbr hbc
    rw [boxList_eq_map]
    have hlen : (boxPositions br bc).length = 9 := by
      rw [boxPositions_eq]
      rfl
    refine perm_digits19_of _ _ (boxPositions_nodup br bc) hlen ?_ ?_
    · intro p hp
      obtain ⟨ha, hb', hcx, hd⟩ := mem_boxPositions.mp hp
      have hpr : p.1 < 9 := by omega
      have hpc : p.2 < 9 := by omega
      have h0 := hfil p.1 hpr p.2 hpc
      have h9 := hr9 p.1 hpr p.2 hpc
      omega
    · intro p hp q hq hpq
      obtain ⟨ha, hb', hcx, hd⟩ := mem_boxPositions.mp hp
      obtain ⟨ha2, hb2, hc2, hd2⟩ := mem_boxPositions.mp hq
      have hpr : p.1 < 9 := by omega
      have hpc : p.2 < 9 := by omega
      have hqr : q.1 < 9 := by omega
      have hqc : q.2 < 9 := by omega
      exact hc p.1 hpr p.2 hpc q.1 hqr q.2 hqc
        (by cases p; cases q; simpa using hpq)
        (Or.inr (Or.inr ⟨by omega, by omega⟩))
        (hfil p.1 hpr p.2 hpc)

/-! ### The solver restores the board on failure -/

theorem tryDigits_restore (recurse : Nat → Board → Bool × Board × Nat)
    (hrec : ∀ k b b' k', recurse k b = (false, b', k') → b' = b) (r c : Nat) :
    ∀ digits b k b' k', b r c = 0 →
      tryDigits recurse r c b k digits = (false, b', k') → b' = b := by
  intro digits
  induction digits with
  | nil =>
    intro b k b' k' h0 h
    simp only [tryDigits] at h
    exact (Prod.mk.injEq _ _ _ _).mp ((Prod.mk.injEq _ _ _ _).mp h).2 |>.1.symm
  | cons num rest ih =>
    intro b k b' k' h0 h
    simp only [tryDigits] at h
    by_cases hleg : is_valid_placement b r c num = true
    · rw [if_pos hleg] at h
      rcases hrec0 : recurse k (setCell b r c num) with ⟨ok, b1, k1⟩
      rw [hrec0] at h
      cases ok
      · have hb1 : b1 = setCell b r c num := hrec _ _ _ _ hrec0
        have hcell : (setCell b1 r c 0) r c = 0 := setCell_same _ _ _ _
        have hres := ih (setCell b1 r c 0) k1 b' k' hcell h
        rw [hres, hb1, setCell_restore _ _ _ _ h0]
      · simp at h
    · rw [if_neg hleg] at h
      exact ih b k b' k' h0 h

theorem solveAux_restore (orders : Nat → List Nat) :
    ∀ fuel k b b' k', solveAux orders fuel k b = (false, b', k') → b' = b := by
  intro fuel
  induction fuel with
  | zero =>
    intro k b b' k' h
    rw [solveAux] at h
    cases hfe : find_empty b with
    | none =>
      rw [hfe] at h
      simp at h
    | some rc =>
      rw [hfe] at h
      exact (Prod.mk.injEq _ _ _ _).mp ((Prod.mk.injEq _ _ _ _).mp h).2 |>.1.symm
  | succ n ih =>
    intro k b b' k' h
    rw [solveAux] at h
    cases hfe : find_empty b with
    | none =>
      rw [hfe] at h
      simp at h
    | some rc =>
      obtain ⟨r, c⟩ := rc
      rw [hfe] at h
      have h0 := (find_empty_some hfe).2.2
      exact tryDigits_restore _ (fun k b b' k' hh => ih k b b' k' hh) r c
        (orders k) b (k + 1) b' k' h0 h

/-! ### Solver soundness -/

theorem tryDigits_sound (recurse : Nat → Board → Bool × Board × Nat) (n : Nat)
    (hrestore : ∀ k b b' k', recurse k b = (false, b', k') → b' = b)
    (hsound : ∀ k b b' k', numEmpty b ≤ n → consistent b → inRange9 b →
      recurse k b = (true, b', k') →
      is_board_filled b' = true ∧ consistent b' ∧ inRange9 b' ∧ Extends b b')
    (r c : Nat) (hr : r < 9) (hc : c < 9) :
    ∀ digits b k b' k', (∀ d ∈ digits, 1 ≤ d ∧ d ≤ 9) → b r c = 0 →
      numEmpty b ≤ n + 1 → consistent b → inRange9 b →
      tryDigits recurse r c b k digits = (true, b', k') →
      is_board_filled b' = true ∧ consistent b' ∧ inRange9 b' ∧ Extends b b' := by
  intro digits
  induction digits with
  | nil =>
    intro b k b' k' _ _ _ _ _ h
    simp only [tryDigits] at h
    simp at h
  | cons num rest ih =>
    intro b k b' k' hdig h0 hfuel hcons hrange h
    simp only [tryDigits] at h
    by_cases hleg : is_valid_placement b r c num = true
    · rw [if_pos hleg] at h
      split at h
      next b1 k1 hrec0 =>
        have hnum := hdig num (List.mem_cons_self num rest)
        have hne : numEmpty (setCell b r c num) ≤ n := by
          have hstep := @numEmpty_setCell b r c num hr hc h0 (by omega)
          omega
        have hcons' := consistent_setCell hcons hr hc h0 hleg
        have hrange' : inRange9 (setCell b r c num) := inRange9_setCell hrange (by omega)
        obtain ⟨hf, hcs, hrg, hex⟩ := hsound _ _ _ _ hne hcons' hrange' hrec0
        have hb' : b' = b1 ∧ k' = k1 := by
          simpa using h.symm
        rw [hb'.1]
        exact ⟨hf, hcs, hrg, Extends_trans (Extends_setCell h0) hex⟩
      next b1 k1 hrec0 =>
        have hb1 : b1 = setCell b r c num := hrestore _ _ _ _ hrec0
        have hrb : setCell b1 r c 0 = b := by
          rw [hb1, setCell_restore _ _ _ _ h0]
        rw [hrb] at h
        exact ih b k1 b' k'
          (fun d hd => hdig d (List.mem_cons_of_mem num hd)) h0 hfuel hcons hrange h
    · rw [if_neg hleg] at h
      exact ih b k b' k'
        (fun d hd => hdig d (List.mem_cons_of_mem num hd)) h0 hfuel hcons hrange h

theorem solveAux_sound (orders : Nat → List Nat)
    (hperm : ∀ k, (orders k).Perm digits19) :
    ∀ fuel k b b' k', numEmpty b ≤ fuel → consistent b → inRange9 b →
      solveAux orders fuel k b = (true, b', k') →
      is_board_filled b' = true ∧ consistent b' ∧ inRange9 b' ∧ Extends b b' := by
  intro fuel
  induction fuel with
  | zero =>
    intro k b b' k' hfuel hcons hrange h
    rw [solveAux] at h
    split at h
    next hfe =>
      have hb' : b' = b := by
        have := h.symm
        simp at this
        exact this.1
      subst hb'
      exact ⟨find_empty_none_iff_filled.mp hfe, hcons, hrange, Extends_refl _⟩
    next rc hfe =>
      simp at h
  | succ n ih =>
    intro k b b' k' hfuel hcons hrange h
    rw [solveAux] at h
    split at h
    next hfe =>
      have hb' : b' = b := by
        have := h.symm
        simp at this
        exact this.1
      subst hb'
      exact ⟨find_empty_none_iff_filled.mp hfe, hcons, hrange, Extends_refl _⟩
    next rc hfe =>
      obtain ⟨r, c⟩ := rc
      obtain ⟨hr, hc, h0⟩ := find_empty_some hfe
      exact tryDigits_sound _ n (solveAux_restore orders n)
        (fun k b b' k' => ih k b b' k') r c hr hc (orders k) b (k + 1) b' k'
        (fun d hd => mem_digits19.mp ((hperm k).subset hd)) h0 hfuel hcons hrange h

/-! ### Solver completeness -/

/-- The digit a solution puts in an empty cell is a legal placement there. -/
theorem solution_placement_legal {b s : Board} (hs : isSolutionOf s b) {r c : Nat}
    (hr : r < 9) (hc : c < 9) (h0 : b r c = 0) :
    is_valid_placement b r c (s r c) = true := by
  obtain ⟨hval, hext⟩ := hs
  have hcons := valid_consistent hval
  have hent := valid_entries hval hr hc
  rw [is_valid_placement_true_iff]
  refine ⟨?_, ?_, ?_⟩
  · rintro ⟨c', hc', he⟩
    have hb0 : b r c' ≠ 0 := by omega
    have hne : ¬((r, c') = (r, c)) := by
      intro hx
      have : c' = c := congrArg Prod.snd hx
      rw [this] at he
      omega
    have hse : s r c' = b r c' := hext r hr c' hc' hb0
    exact hcons r hr c' hc' r hr c hc hne (Or.inl rfl)
      (by rw [hse]; exact hb0) (by rw [hse, he])
  · rintro ⟨r', hr', he⟩
    have hb0 : b r' c ≠ 0 := by omega
    have hne : ¬((r', c) = (r, c)) := by
      intro hx
      have : r' = r := congrArg Prod.fst hx
      rw [this] at he
      omega
    have hse : s r' c = b r' c := hext r' hr' c hc hb0
    exact hcons r' hr' c hc r hr c hc hne (Or.inr (Or.inl rfl))
      (by rw [hse]; exact hb0) (by rw [hse, he])
  · rintro ⟨r', c', hb1, hb2, hb3, hb4, he⟩
    have hr'9 : r' < 9 := by omega
    have hc'9 : c' < 9 := by omega
    have hb0 : b r' c' ≠ 0 := by omega
    have hne : ¬((r', c') = (r, c)) := by
      intro hx
      have h1 : r' = r := congrArg Prod.fst hx
      have h2 : c' = c := congrArg Prod.snd hx
      rw [h1, h2] at he
      omega
    have hse : s r' c' = b r' c' := hext r' hr'9 c' hc'9 hb0
    exact hcons r' hr'9 c' hc'9 r hr c hc hne
      (Or.inr (Or.inr ⟨by omega, by omega⟩))
      (by rw [hse]; exact hb0) (by rw [hse, he])

/-- A solution of `b` placing `num` at the empty cell `(r, c)` is also a
solution of the board with `num` placed there. -/
theorem isSolutionOf_setCell {b s : Board} {r c num : Nat} (hs : isSolutionOf s b)
    (h0 : b r c = 0) (hnum : s r c = num) :
    isSolutionOf s (setCell b r c num) := by
  obtain ⟨hval, hext⟩ := hs
  refine ⟨hval, ?_⟩
  intro r' hr' c' hc' hnz
  by_cases he : r' = r ∧ c' = c
  · obtain ⟨rfl, rfl⟩ := he
    rw [setCell_same]
    exact hnum
  · rw [setCell_of_ne _ _ _ _ _ _ he] at hnz ⊢
    exact hext r' hr' c' hc' hnz

theorem tryDigits_complete (recurse : Nat → Board → Bool × Board × Nat) (n : Nat)
    (hrestore : ∀ k b b' k', recurse k b = (false, b', k') → b' = b)
    (hcomplete : ∀ k b, numEmpty b ≤ n → (∃ s, isSolutionOf s b) →
      (recurse k b).1 = true)
    (r c : Nat) (hr : r < 9) (hc : c < 9) :
    ∀ digits b k, b r c = 0 → numEmpty b ≤ n + 1 →
      (∃ s, isSolutionOf s b ∧ s r c ∈ digits) →
      (tryDigits recurse r c b k digits).1 = true := by
  intro digits
  induction digits with
  | nil =>
    rintro b k h0 hfuel ⟨s, hs, hmem⟩
    cases hmem
  | cons num rest ih =>
    rintro b k h0 hfuel ⟨s, hs, hmem⟩
    simp only [tryDigits]
    by_cases hleg : is_valid_placement b r c num = true
    · rw [if_pos hleg]
      rcases hrec0 : recurse k (setCell b r c num) with ⟨ok, b1, k1⟩
      cases ok
      · have hb1 : b1 = setCell b r c num := hrestore _ _ _ _ hrec0
        have hrb : setCell b1 r c 0 = b := by
          rw [hb1, setCell_restore _ _ _ _ h0]
        rcases List.mem_cons.mp hmem with heq | hmemr
        · exfalso
          have hnum0 : 1 ≤ s r c := (valid_entries hs.1 hr hc).1
          have hne : numEmpty (setCell b r c num) ≤ n := by
            have hstep := @numEmpty_setCell b r c num hr hc h0 (by omega)
            omega
          have := hcomplete k (setCell b r c num) hne
            ⟨s, isSolutionOf_setCell hs h0 heq⟩
          rw [hrec0] at this
          simp at this
        · have hres := ih (setCell b1 r c 0) k1 (setCell_same _ _ _ _)
            (by rw [hrb]; exact hfuel) ⟨s, by rw [hrb]; exact hs, hmemr⟩
          simpa using hres
      · simp
    · rw [if_neg hleg]
      rcases List.mem_cons.mp hmem with heq | hmemr
      · exfalso
        apply hleg
        rw [← heq]
        exact solution_placement_legal hs hr hc h0
      · exact ih b k h0 hfuel ⟨s, hs, hmemr⟩

theorem solveAux_complete (orders : Nat → List Nat)
    (hperm : ∀ k, (orders k).Perm digits19) :
    ∀ fuel k b, numEmpty b ≤ fuel → (∃ s, isSolutionOf s b) →
      (solveAux orders fuel k b).1 = true := by
  intro fuel
  induction fuel with
  | zero =>
    intro k b hfuel hsol
    rw [solveAux]
    have hfe : find_empty b = none := numEmpty_eq_zero_iff.mp (by omega)
    rw [hfe]
  | succ n ih =>
    intro k b hfuel hsol
    rw [solveAux]
    cases hfe : find_empty b with
    | none => rfl
    | some rc =>
      obtain ⟨r, c⟩ := rc
      obtain ⟨hr, hc, h0⟩ := find_empty_some hfe
      obtain ⟨s, hs⟩ := hsol
      have hmem : s r c ∈ orders k :=
        (hperm k).mem_iff.mpr (mem_digits19.mpr (valid_entries hs.1 hr hc))
      exact tryDigits_complete _ n (solveAux_restore orders n)
        (fun k b hne hsol => ih k b hne hsol) r c hr hc (orders k) b (k + 1)
        h0 hfuel ⟨s, hs, hmem⟩

/-! ### Concrete boards -/

theorem consistent_emptyBoard : consistent emptyBoard := by
  intro r1 _ c1 _ r2 _ c2 _ _ _ hz
  exact absurd rfl hz

theorem inRange9_emptyBoard : inRange9 emptyBoard := by
  intro r _ c _
  exact Nat.zero_le 9

theorem scenarioB_valid : is_board_valid scenarioB = true := by decide

theorem scenarioB_solution_of_empty : isSolutionOf scenarioB emptyBoard :=
  ⟨scenarioB_valid, fun _ _ _ _ h => absurd rfl h⟩

/-! ### Claim theorems: the constraint checker (C2, C10) -/

/-- C2: `is_valid_placement` returns `false` exactly when the digit already
appears in the row, the column, or the 3×3 box containing the cell, and
`true` otherwise (it is a pure function of the board in this embedding, so
it has no side effects); on the fully empty board it returns `true` for
every position and digit 1-9 — empty cells never conflict. -/
theorem claim_C2_is_valid_placement_contract :
    (∀ b r c d, is_valid_placement b r c d = false ↔
      appearsInRow b r d ∨ appearsInCol b c d ∨ appearsInBox b r c d) ∧
    (∀ r c d, 1 ≤ d → d ≤ 9 → is_valid_placement emptyBoard r c d = true) := by
  constructor
  · exact is_valid_placement_false_iff
  · intro r c d hd1 _
    rw [is_valid_placement_true_iff]
    refine ⟨?_, ?_, ?_⟩
    · rintro ⟨c', _, h⟩
      rw [show emptyBoard r c' = 0 from rfl] at h
      omega
    · rintro ⟨r', _, h⟩
      rw [show emptyBoard r' c = 0 from rfl] at h
      omega
    · rintro ⟨r', c', _, _, _, _, h⟩
      rw [show emptyBoard r' c' = 0 from rfl] at h
      omega

/-- Witness for C2 at a concrete instance. -/
theorem claim_C2_witness : is_valid_placement emptyBoard 0 0 5 = true :=
  claim_C2_is_valid_placement_contract.2 0 0 5 (by decide) (by decide)

/-- C10: the scans of `is_valid_placement` include the queried cell itself,
so whenever the board already holds digit `d` at `(r, c)`, the checker
reports a conflict (returns `false`). -/
theorem claim_C10_self_conflict (b : Board) (r c d : Nat) (hr : r < 9) (hc : c < 9)
    (hd1 : 1 ≤ d) (hd9 : d ≤ 9) (hbd : b r c = d) :
    is_valid_placement b r c d = false := by
  rw [is_valid_placement_false_iff]
  exact Or.inl ⟨c, hc, hbd⟩

/-- Witness for C10 at a concrete instance. -/
theorem claim_C10_witness : is_valid_placement (setCell emptyBoard 0 0 5) 0 0 5 = false :=
  claim_C10_self_conflict (setCell emptyBoard 0 0 5) 0 0 5 (by decide) (by decide)
    (by decide) (by decide) (setCell_same emptyBoard 0 0 5)

/-! ### Claim theorems: the backtracking solver (C1, C4) -/

/-- Shared form of the solver-from-empty property: success, validity and
completeness of the produced board. -/
theorem solve_board_empty_spec (orders : Nat → List Nat)
    (hperm : ∀ k, (orders k).Perm digits19) :
    (solve_board orders emptyBoard).1 = true ∧
    is_board_valid (solve_board orders emptyBoard).2 = true ∧
    is_board_filled (solve_board orders emptyBoard).2 = true := by
  have hne : numEmpty emptyBoard ≤ 81 := numEmpty_le_81 _
  have hok : (solveAux orders 81 0 emptyBoard).1 = true :=
    solveAux_complete orders hperm 81 0 emptyBoard hne ⟨scenarioB, scenarioB_solution_of_empty⟩
  rcases h81 : solveAux orders 81 0 emptyBoard with ⟨ok, b', k'⟩
  rw [h81] at hok
  simp only at hok
  subst hok
  obtain ⟨hf, hcs, hrg, _⟩ := solveAux_sound orders hperm 81 0 emptyBoard b' k'
    hne consistent_emptyBoard inRange9_emptyBoard h81
  have hv := valid_of_filled_consistent hf hcs hrg
  rw [solve_board, h81]
  exact ⟨rfl, hv, hf⟩

/-- C1: for every sequence of random shuffles, running the solver on the
empty 9×9 board succeeds, and the resulting board is both valid (every row,
column and box a permutation of 1-9) and completely filled. -/
theorem claim_C1_solver_from_empty (orders : Nat → List Nat)
    (hperm : ∀ k, (orders k).Perm digits19) :
    (solve_board orders emptyBoard).1 = true ∧
    is_board_valid (solve_board orders emptyBoard).2 = true ∧
    is_board_filled (solve_board orders emptyBoard).2 = true :=
  solve_board_empty_spec orders hperm

/-- Witness for C1: the identity (unshuffled) candidate order. -/
theorem claim_C1_witness :
    (solve_board (fun _ => digits19) emptyBoard).1 = true ∧
    is_board_valid (solve_board (fun _ => digits19) emptyBoard).2 = true ∧
    is_board_filled (solve_board (fun _ => digits19) emptyBoard).2 = true :=
  claim_C1_solver_from_empty (fun _ => digits19) (fun _ => List.Perm.refl digits19)

/-- C4: on a unit-consistent in-range board, for every sequence of random
shuffles: if no completion of the board exists, the solver returns `false`
and the board is exactly unchanged (every tentative placement was undone);
if a completion exists, it returns `true` and the final board is a filled,
valid board extending the input. -/
theorem claim_C4_solver_failure_and_success (orders : Nat → List Nat)
    (hperm : ∀ k, (orders k).Perm digits19) (b : Board)
    (hcons : consistent b) (hrange : inRange9 b) :
    ((¬∃ s, isSolutionOf s b) → solve_board orders b = (false, b)) ∧
    ((∃ s, isSolutionOf s b) →
      (solve_board orders b).1 = true ∧
      is_board_filled (solve_board orders b).2 = true ∧
      is_board_valid (solve_board orders b).2 = true ∧
      Extends b (solve_board orders b).2) := by
  have hne : numEmpty b ≤ 81 := numEmpty_le_81 _
  rcases h81 : solveAux orders 81 0 b with ⟨ok, b', k'⟩
  constructor
  · intro hnone
    cases ok
    · have hrest : b' = b := solveAux_restore orders 81 0 b b' k' h81
      rw [solve_board, h81, hrest]
    · exfalso
      obtain ⟨hf, hcs, hrg, hex⟩ := solveAux_sound orders hperm 81 0 b b' k'
        hne hcons hrange h81
      exact hnone ⟨b', valid_of_filled_consistent hf hcs hrg, hex⟩
  · intro hsol
    have hok : (solveAux orders 81 0 b).1 = true :=
      solveAux_complete orders hperm 81 0 b hne hsol
    rw [h81] at hok
    simp only at hok
    subst hok
    obtain ⟨hf, hcs, hrg, hex⟩ := solveAux_sound orders hperm 81 0 b b' k'
      hne hcons hrange h81
    have hv := valid_of_filled_consistent hf hcs hrg
    rw [solve_board, h81]
    exact ⟨rfl, hf, hv, hex⟩

/-- Witness for C4: the empty board with the identity order. -/
theorem claim_C4_witness :
    (solve_board (fun _ => digits19) emptyBoard).1 = true ∧
    is_board_filled (solve_board (fun _ => digits19) emptyBoard).2 = true ∧
    is_board_valid (solve_board (fun _ => digits19) emptyBoard).2 = true ∧
    Extends emptyBoard (solve_board (fun _ => digits19) emptyBoard).2 :=
  (claim_C4_solver_failure_and_success (fun _ => digits19)
    (fun _ => List.Perm.refl digits19) emptyBoard consistent_emptyBoard
    inRange9_emptyBoard).2 ⟨scenarioB, scenarioB_solution_of_empty⟩

/-! ### The solution counter restores the board -/

theorem countDigits_restore (recurse : Nat → Board → Nat × Board)
    (hrec : ∀ cnt b, (recurse cnt b).2 = b) (r c : Nat) :
    ∀ digits cnt b, b r c = 0 → (countDigits recurse r c cnt b digits).2 = b := by
  intro digits
  induction digits with
  | nil =>
    intro cnt b _
    simp [countDigits]
  | cons num rest ih =>
    intro cnt b h0
    simp only [countDigits]
    by_cases hleg : is_valid_placement b r c num = true
    · rw [if_pos hleg]
      have hres2 : (recurse cnt (setCell b r c num)).2 = setCell b r c num := hrec _ _
      have hrb : setCell (recurse cnt (setCell b r c num)).2 r c 0 = b := by
        rw [hres2, setCell_restore _ _ _ _ h0]
      rw [hrb]
      exact ih _ b h0
    · rw [if_neg hleg]
      exact ih cnt b h0

theorem countAux_restore (limit : Nat) :
    ∀ fuel cnt b, (countAux limit fuel cnt b).2 = b := by
  intro fuel
  induction fuel with
  | zero =>
    intro cnt b
    rw [countAux]
    by_cases hlim : limit ≤ cnt
    · rw [if_pos hlim]
    · rw [if_neg hlim]
      cases hfe : find_empty b with
      | none => rfl
      | some rc => rfl
  | succ n ih =>
    intro cnt b
    rw [countAux]
    by_cases hlim : limit ≤ cnt
    · rw [if_pos hlim]
    · rw [if_neg hlim]
      cases hfe : find_empty b with
      | none => rfl
      | some rc =>
        obtain ⟨r, c⟩ := rc
        have h0 := (find_empty_some hfe).2.2
        exact countDigits_restore (countAux limit n) (fun cnt b => ih cnt b) r c
          (List.range' 1 9) cnt b h0

/-! ### Digit grids and completions -/

theorem gBoard_lt {g : G9} {r c : Nat} (hr : r < 9) (hc : c < 9) :
    gBoard g r c = (g ⟨r, hr⟩ ⟨c, hc⟩).val + 1 := by
  simp [gBoard, hr, hc]

theorem bool_eq_of_iff {x y : Bool} (h : x = true ↔ y = true) : x = y := by
  cases x <;> cases y <;> simp_all

/-- Boards agreeing on the 9×9 area have the same validity verdict. -/
theorem is_board_valid_congr {b b' : Board}
    (h : ∀ r, r < 9 → ∀ c, c < 9 → b r c = b' r c) :
    is_board_valid b = is_board_valid b' := by
  have hrow : ∀ r, r < 9 → rowList b r = rowList b' r := by
    intro r hr
    simp only [rowList]
    exact List.map_congr_left (fun c hcm => h r hr c (List.mem_range.mp hcm))
  have hcol : ∀ c, c < 9 → colList b c = colList b' c := by
    intro c hc
    simp only [colList]
    exact List.map_congr_left (fun r hrm => h r (List.mem_range.mp hrm) c hc)
  have hbox : ∀ br bc, (br = 0 ∨ br = 3 ∨ br = 6) → (bc = 0 ∨ bc = 3 ∨ bc = 6) →
      boxList b br bc = boxList b' br bc := by
    intro br bc hbr hbc
    rw [boxList_eq_map, boxList_eq_map]
    refine List.map_congr_left ?_
    intro p hp
    obtain ⟨h1, h2, h3, h4⟩ := mem_boxPositions.mp hp
    exact h p.1 (by omega) p.2 (by omega)
  apply bool_eq_of_iff
  constructor
  · intro hv
    apply valid_of_units
    · intro r hr
      rw [← hrow r hr]
      exact valid_row hv hr
    · intro c hc
      rw [← hcol c hc]
      exact valid_col hv hc
    · intro br bc hbr hbc
      rw [← hbox br bc hbr hbc]
      exact valid_box hv hbr hbc
  · intro hv
    apply valid_of_units
    · intro r hr
      rw [hrow r hr]
      exact valid_row hv hr
    · intro c hc
      rw [hcol c hc]
      exact valid_col hv hc
    · intro br bc hbr hbc
      rw [hbox br bc hbr hbc]
      exact valid_box hv hbr hbc

/-- A filled, unit-consistent, in-range board has exactly one completion:
itself. -/
theorem numSolutions_of_filled {b : Board} (hf : is_board_filled b = true)
    (hc : consistent b) (hr9 : inRange9 b) : numSolutions b = 1 := by
  rw [numSolutions, Finset.card_eq_one]
  refine ⟨fun r c => ⟨(b r.val c.val - 1) % 9, Nat.mod_lt _ (by omega)⟩, ?_⟩
  ext g
  simp only [Finset.mem_filter, Finset.mem_univ, true_and, Finset.mem_singleton]
  have hfil := is_board_filled_iff.mp hf
  constructor
  · intro hcg
    obtain ⟨_, hext⟩ := hcg
    funext r c
    have hbn : b r.val c.val ≠ 0 := hfil r.val r.isLt c.val c.isLt
    have hag := hext r.val r.isLt c.val c.isLt hbn
    rw [gBoard_lt r.isLt c.isLt] at hag
    simp only [Fin.eta] at hag
    have hb9 := hr9 r.val r.isLt c.val c.isLt
    apply Fin.ext
    simp only []
    omega
  · rintro rfl
    have hagree : ∀ r, r < 9 → ∀ c, c < 9 →
        gBoard (fun r c => (⟨(b r.val c.val - 1) % 9, Nat.mod_lt _ (by omega)⟩ : Fin 9)) r c
          = b r c := by
      intro r hr c hc
      rw [gBoard_lt hr hc]
      have h0 : b r c ≠ 0 := hfil r hr c hc
      have h9 := hr9 r hr c hc
      simp only []
      omega
    refine ⟨?_, ?_⟩
    · rw [is_board_valid_congr hagree]
      exact valid_of_filled_consistent hf hc hr9
    · intro r hr c hc _
      exact hagree r hr c hc

/-- An illegal digit placed in an empty cell leaves a board without any
completion. -/
theorem numSolutions_illegal_zero {b : Board} {r c num : Nat} (hr : r < 9) (hc : c < 9)
    (h0 : b r c = 0) (hnum1 : 1 ≤ num)
    (hil : is_valid_placement b r c num = false) :
    numSolutions (setCell b r c num) = 0 := by
  rw [numSolutions, Finset.card_eq_zero, Finset.filter_eq_empty_iff]
  intro g _ hcg
  obtain ⟨hval, hext⟩ := hcg
  have hconsS := valid_consistent hval
  have hgrc : gBoard g r c = num := by
    have hnz : setCell b r c num r c ≠ 0 := by
      rw [setCell_same]
      omega
    have hh := hext r hr c hc hnz
    rw [setCell_same] at hh
    exact hh
  rw [is_valid_placement_false_iff] at hil
  rcases hil with ⟨c', hc', he⟩ | ⟨r', hr', he⟩ | ⟨r', c', h1, h2, h3, h4, he⟩
  · have hne : c' ≠ c := fun hx => by rw [hx, h0] at he; omega
    have hneP : ¬(r = r ∧ c' = c) := fun hp => hne hp.2
    have hgc' : gBoard g r c' = num := by
      have hnz : setCell b r c num r c' ≠ 0 := by
        rw [setCell_of_ne _ _ _ _ _ _ hneP, he]
        omega
      have hh := hext r hr c' hc' hnz
      rw [setCell_of_ne _ _ _ _ _ _ hneP, he] at hh
      exact hh
    exact (hconsS r hr c' hc' r hr c hc (fun hp => hne (congrArg Prod.snd hp))
      (Or.inl rfl) (by rw [hgc']; omega)) (hgc'.trans hgrc.symm)
  · have hne : r' ≠ r := fun hx => by rw [hx, h0] at he; omega
    have hneP : ¬(r' = r ∧ c = c) := fun hp => hne hp.1
    have hgr' : gBoard g r' c = num := by
      have hnz : setCell b r c num r' c ≠ 0 := by
        rw [setCell_of_ne _ _ _ _ _ _ hneP, he]
        omega
      have hh := hext r' hr' c hc hnz
      rw [setCell_of_ne _ _ _ _ _ _ hneP, he] at hh
      exact hh
    exact (hconsS r' hr' c hc r hr c hc (fun hp => hne (congrArg Prod.fst hp))
      (Or.inr (Or.inl rfl)) (by rw [hgr']; omega)) (hgr'.trans hgrc.symm)
  · have hr'9 : r' < 9 := by omega
    have hc'9 : c' < 9 := by omega
    have hne : ¬(r' = r ∧ c' = c) := by
      rintro ⟨rfl, rfl⟩
      rw [h0] at he
      omega
    have hgb : gBoard g r' c' = num := by
      have hnz : setCell b r c num r' c' ≠ 0 := by
        rw [setCell_of_ne _ _ _ _ _ _ hne, he]
        omega
      have hh := hext r' hr'9 c' hc'9 hnz
      rw [setCell_of_ne _ _ _ _ _ _ hne, he] at hh
      exact hh
    have hnePair : (r', c') ≠ (r, c) := by
      intro hp
      exact hne ⟨congrArg Prod.fst hp, congrArg Prod.snd hp⟩
    exact (hconsS r' hr'9 c' hc'9 r hr c hc hnePair
      (Or.inr (Or.inr ⟨by omega, by omega⟩)) (by rw [hgb]; omega))
      (hgb.trans hgrc.symm)

theorem sum_map_range' (f : Nat → Nat) (n : Nat) :
    ∀ s, ((List.range' s n).map f).sum = ∑ i ∈ Finset.range n, f (s + i) := by
  induction n with
  | zero =>
    intro s
    simp
  | succ m ih =>
    intro s
    rw [List.range'_succ, List.map_cons, List.sum_cons, ih (s + 1),
      Finset.sum_range_succ']
    have hcg : ∀ i ∈ Finset.range m, f (s + 1 + i) = f (s + (i + 1)) :=
      fun i _ => congrArg f (by omega)
    rw [Finset.sum_congr rfl hcg, Nat.add_zero]
    exact Nat.add_comm _ _

/-- Completions of a board with empty cell `(r, c)` split by the digit they
place there. -/
theorem numSolutions_branch {b : Board} {r c : Nat} (hr : r < 9) (hc : c < 9)
    (h0 : b r c = 0) :
    numSolutions b =
      ((List.range' 1 9).map (fun num => numSolutions (setCell b r c num))).sum := by
  have hfib := @Finset.card_eq_sum_card_fiberwise G9 (Fin 9) _
    (fun g => g ⟨r, hr⟩ ⟨c, hc⟩) (Finset.univ.filter (fun g => isCompletionG b g))
    Finset.univ (fun x _ => Finset.mem_univ _)
  rw [numSolutions, hfib]
  have hfiber : ∀ d : Fin 9,
      ((Finset.univ.filter (fun g => isCompletionG b g)).filter
        (fun g => g ⟨r, hr⟩ ⟨c, hc⟩ = d)).card
        = numSolutions (setCell b r c (d.val + 1)) := by
    intro d
    rw [numSolutions]
    have hset : (Finset.univ.filter (fun g => isCompletionG b g)).filter
        (fun g => g ⟨r, hr⟩ ⟨c, hc⟩ = d)
        = Finset.univ.filter (fun g => isCompletionG (setCell b r c (d.val + 1)) g) := by
      ext g
      simp only [Finset.mem_filter, Finset.mem_univ, true_and]
      constructor
      · rintro ⟨⟨hval, hext⟩, hgd⟩
        refine ⟨hval, ?_⟩
        intro r' hr' c' hc' hnz
        by_cases he : r' = r ∧ c' = c
        · rw [he.1, he.2, setCell_same, gBoard_lt hr hc, hgd]
        · rw [setCell_of_ne _ _ _ _ _ _ he] at hnz ⊢
          exact hext r' hr' c' hc' hnz
      · rintro ⟨hval, hextS⟩
        refine ⟨⟨hval, ?_⟩, ?_⟩
        · intro r' hr' c' hc' hnz
          have hne : ¬(r' = r ∧ c' = c) := by
            rintro ⟨rfl, rfl⟩
            exact hnz h0
          have hnzS : setCell b r c (d.val + 1) r' c' ≠ 0 := by
            rw [setCell_of_ne _ _ _ _ _ _ hne]
            exact hnz
          have hh := hextS r' hr' c' hc' hnzS
          rw [setCell_of_ne _ _ _ _ _ _ hne] at hh
          exact hh
        · have hnzS : setCell b r c (d.val + 1) r c ≠ 0 := by
            rw [setCell_same]
            exact Nat.succ_ne_zero _
          have hh := hextS r hr c hc hnzS
          rw [setCell_same, gBoard_lt hr hc] at hh
          exact Fin.ext (Nat.add_right_cancel hh)
    rw [hset]
  calc ∑ d : Fin 9, ((Finset.univ.filter (fun g => isCompletionG b g)).filter
        (fun g => g ⟨r, hr⟩ ⟨c, hc⟩ = d)).card
      = ∑ d : Fin 9, numSolutions (setCell b r c (d.val + 1)) :=
        Finset.sum_congr rfl (fun d _ => hfiber d)
    _ = ∑ i ∈ Finset.range 9, numSolutions (setCell b r c (i + 1)) :=
        Fin.sum_univ_eq_sum_range (fun i => numSolutions (setCell b r c (i + 1))) 9
    _ = ((List.range' 1 9).map (fun num => numSolutions (setCell b r c num))).sum := by
        rw [sum_map_range']
        exact Finset.sum_congr rfl (fun i _ => by rw [Nat.add_comm i 1])

/-! ### Correctness of the bounded solution counter -/

theorem min_add_absorb (x y L : Nat) : min (min x L + y) L = min (x + y) L := by
  rcases Nat.le_total x L with h | h
  · rw [Nat.min_eq_left h]
  · rw [Nat.min_eq_right h]
    have h1 : min (x + y) L = L := Nat.min_eq_right (by omega)
    have h2 : min (L + y) L = L := Nat.min_eq_right (by omega)
    rw [h1, h2]

theorem countDigits_correct (recurse : Nat → Board → Nat × Board) (n limit : Nat)
    (hrestore : ∀ cnt b, (recurse cnt b).2 = b)
    (hcount : ∀ cnt b, cnt ≤ limit → numEmpty b ≤ n → consistent b → inRange9 b →
      (recurse cnt b).1 = min (cnt + numSolutions b) limit)
    (r c : Nat) (hr : r < 9) (hc : c < 9) :
    ∀ digits b cnt, (∀ d ∈ digits, 1 ≤ d ∧ d ≤ 9) → b r c = 0 → cnt ≤ limit →
      numEmpty b ≤ n + 1 → consistent b → inRange9 b →
      (countDigits recurse r c cnt b digits).1 =
        min (cnt + (digits.map (fun num => numSolutions (setCell b r c num))).sum)
          limit := by
  intro digits
  induction digits with
  | nil =>
    intro b cnt _ _ hcnt _ _ _
    simp only [countDigits, List.map_nil, List.sum_nil, Nat.add_zero]
    exact (Nat.min_eq_left hcnt).symm
  | cons num rest ih =>
    intro b cnt hdig h0 hcnt hfuel hcons hrange
    simp only [countDigits, List.map_cons, List.sum_cons]
    by_cases hleg : is_valid_placement b r c num = true
    · rw [if_pos hleg]
      have hnum := hdig num (List.mem_cons_self num rest)
      have hres2 : (recurse cnt (setCell b r c num)).2 = setCell b r c num :=
        hrestore _ _
      have hstep := @numEmpty_setCell b r c num hr hc h0 (by omega)
      have hres1 : (recurse cnt (setCell b r c num)).1 =
          min (cnt + numSolutions (setCell b r c num)) limit :=
        hcount cnt _ hcnt (by omega) (consistent_setCell hcons hr hc h0 hleg)
          (inRange9_setCell hrange (by omega))
      have hrb : setCell (recurse cnt (setCell b r c num)).2 r c 0 = b := by
        rw [hres2, setCell_restore _ _ _ _ h0]
      rw [hrb, hres1]
      rw [ih b _ (fun d hd => hdig d (List.mem_cons_of_mem num hd)) h0
        (Nat.min_le_right _ _) hfuel hcons hrange]
      rw [min_add_absorb]
      rw [Nat.add_assoc]
    · rw [if_neg hleg]
      rw [ih b cnt (fun d hd => hdig d (List.mem_cons_of_mem num hd)) h0
        hcnt hfuel hcons hrange]
      have hz : numSolutions (setCell b r c num) = 0 :=
        numSolutions_illegal_zero hr hc h0
          (hdig num (List.mem_cons_self num rest)).1
          (by rw [← Bool.not_eq_true]; exact hleg)
      rw [hz, Nat.zero_add]

theorem countAux_correct (limit : Nat) :
    ∀ fuel cnt b, cnt ≤ limit → numEmpty b ≤ fuel → consistent b → inRange9 b →
      (countAux limit fuel cnt b).1 = min (cnt + numSolutions b) limit := by
  intro fuel
  induction fuel with
  | zero =>
    intro cnt b hcnt hfuel hcons hrange
    rw [countAux]
    by_cases hlim : limit ≤ cnt
    · rw [if_pos hlim]
      have : cnt = limit := Nat.le_antisymm hcnt hlim
      subst this
      exact (Nat.min_eq_right (by omega)).symm
    · rw [if_neg hlim]
      have hfe0 : find_empty b = none := numEmpty_eq_zero_iff.mp (by omega)
      rw [hfe0]
      have hfil : is_board_filled b = true := find_empty_none_iff_filled.mp hfe0
      rw [numSolutions_of_filled hfil hcons hrange]
      simp only []
      exact (Nat.min_eq_left (by omega)).symm
  | succ n ih =>
    intro cnt b hcnt hfuel hcons hrange
    rw [countAux]
    by_cases hlim : limit ≤ cnt
    · rw [if_pos hlim]
      have : cnt = limit := Nat.le_antisymm hcnt hlim
      subst this
      exact (Nat.min_eq_right (by omega)).symm
    · rw [if_neg hlim]
      cases hfe : find_empty b with
      | none =>
        have hfil : is_board_filled b = true := find_empty_none_iff_filled.mp hfe
        rw [numSolutions_of_filled hfil hcons hrange]
        simp only []
        exact (Nat.min_eq_left (by omega)).symm
      | some rc =>
        obtain ⟨r, c⟩ := rc
        obtain ⟨hr, hc, h0⟩ := find_empty_some hfe
        have hdig : ∀ d ∈ List.range' 1 9, 1 ≤ d ∧ d ≤ 9 := by decide
        rw [countDigits_correct (countAux limit n) n limit
          (fun cnt b => countAux_restore limit n cnt b)
          (fun cnt b h1 h2 h3 h4 => ih cnt b h1 h2 h3 h4) r c hr hc
          (List.range' 1 9) b cnt hdig h0 hcnt hfuel hcons hrange]
        rw [← numSolutions_branch hr hc h0]

/-- `count_solutions` returns the true number of completions capped at the
limit, for unit-consistent in-range boards. -/
theorem count_solutions_correct {b : Board} (hcons : consistent b)
    (hrange : inRange9 b) (limit : Nat) :
    count_solutions b limit = min (numSolutions b) limit := by
  rw [count_solutions,
    countAux_correct limit 81 0 b (Nat.zero_le _) (numEmpty_le_81 b) hcons hrange,
    Nat.zero_add]

/-! ### Claim theorems: the solution counter (C3, C7) -/

theorem scenarioB_filled : is_board_filled scenarioB = true := by decide

theorem scenarioB_consistent : consistent scenarioB := valid_consistent scenarioB_valid

theorem scenarioB_inRange : inRange9 scenarioB :=
  fun r hr c hc => (valid_entries scenarioB_valid hr hc).2

theorem scenarioB_numSolutions : numSolutions scenarioB = 1 :=
  numSolutions_of_filled scenarioB_filled scenarioB_consistent scenarioB_inRange

/-- C3 counterexample: the claim quantifies over every `limit`, but with
`limit = 0` the counter exits immediately and returns `0` even on a board
with exactly one completion, where the claim's "returns 1 on a grid with
exactly one completion" demands `1`. -/
theorem claim_C3_counterexample :
    consistent scenarioB ∧ inRange9 scenarioB ∧ numSolutions scenarioB = 1 ∧
    count_solutions scenarioB 0 = 0 ∧ count_solutions scenarioB 0 ≠ 1 := by
  have h0 : count_solutions scenarioB 0 = 0 := by
    rw [count_solutions, countAux]
    simp
  exact ⟨scenarioB_consistent, scenarioB_inRange, scenarioB_numSolutions, h0,
    by rw [h0]; omega⟩

/-- C3 (amended): on a unit-consistent in-range board, `count_solutions`
returns the number of distinct completions capped at `limit`
(`min (numSolutions b) limit`); in particular it returns the exact count
when the count is below the limit, returns 1 on a board with exactly one
completion provided `limit ≥ 1`, returns exactly `limit` whenever the board
admits at least `limit` completions, and never exceeds `limit`. -/
theorem claim_C3_count_solutions_cap (b : Board) (hcons : consistent b)
    (hrange : inRange9 b) (limit : Nat) :
    count_solutions b limit = min (numSolutions b) limit ∧
    (numSolutions b < limit → count_solutions b limit = numSolutions b) ∧
    (numSolutions b = 1 → 1 ≤ limit → count_solutions b limit = 1) ∧
    (limit ≤ numSolutions b → count_solutions b limit = limit) ∧
    count_solutions b limit ≤ limit := by
  have h := count_solutions_correct hcons hrange limit
  refine ⟨h, ?_, ?_, ?_, ?_⟩
  · intro hlt
    rw [h]
    exact Nat.min_eq_left (by omega)
  · intro h1 hl
    rw [h, h1]
    exact Nat.min_eq_left hl
  · intro hl
    rw [h]
    exact Nat.min_eq_right hl
  · rw [h]
    exact Nat.min_le_right _ _

/-- Witness for the amended C3 on a concrete board with a unique completion
and the generation limit 2. -/
theorem claim_C3_witness :
    count_solutions scenarioB 2 = min (numSolutions scenarioB) 2 ∧
    count_solutions scenarioB 2 = 1 :=
  ⟨(claim_C3_count_solutions_cap scenarioB scenarioB_consistent scenarioB_inRange 2).1,
    (claim_C3_count_solutions_cap scenarioB scenarioB_consistent scenarioB_inRange 2).2.2.1
      scenarioB_numSolutions (by decide)⟩

/-- C7: `count_solutions` is semantically read-only: the board state after
the call (`(countAux limit 81 0 b).2` in this embedding of the in-place
mutation) is exactly the board passed in — every tentative placement,
including those on the early-exit path, is undone. -/
theorem claim_C7_counter_read_only (b : Board) (hcons : consistent b) (limit : Nat) :
    (countAux limit 81 0 b).2 = b :=
  countAux_restore limit 81 0 b

/-- Witness for C7 on the empty board with limit 2. -/
theorem claim_C7_witness : (countAux 2 81 0 emptyBoard).2 = emptyBoard :=
  claim_C7_counter_read_only emptyBoard consistent_emptyBoard 2

/-! ### Claim theorems: the grid validator (C5) -/

/-- C5: `is_board_valid` holds exactly when every row, column and 3×3 box,
viewed as a multiset of 9 cell values, is exactly the digit multiset
`{1, …, 9}`; a board with an empty (zero) cell in some unit fails the
check; and overwriting a cell of a valid board with the value of another
cell of a shared unit (creating a duplicate) makes it fail. -/
theorem claim_C5_validator_charac :
    (∀ b : Board, is_board_valid b = true ↔
      ((∀ r, r < 9 → ((rowList b r : Multiset Nat) = (digits19 : Multiset Nat))) ∧
       (∀ c, c < 9 → ((colList b c : Multiset Nat) = (digits19 : Multiset Nat))) ∧
       (∀ i, i < 3 → ∀ j, j < 3 →
         ((boxList b (3 * i) (3 * j) : Multiset Nat) = (digits19 : Multiset Nat))))) ∧
    (∀ b : Board, ∀ r c, r < 9 → c < 9 → b r c = 0 → is_board_valid b = false) ∧
    (∀ b : Board, ∀ r c r' c', is_board_valid b = true →
      r < 9 → c < 9 → r' < 9 → c' < 9 → (r, c) ≠ (r', c') →
      (r = r' ∨ c = c' ∨ (r / 3 = r' / 3 ∧ c / 3 = c' / 3)) →
      is_board_valid (setCell b r c (b r' c')) = false) := by
  refine ⟨?_, ?_, ?_⟩
  · intro b
    constructor
    · intro hv
      refine ⟨?_, ?_, ?_⟩
      · intro r hr
        exact Multiset.coe_eq_coe.mpr (valid_row hv hr)
      · intro c hc
        exact Multiset.coe_eq_coe.mpr (valid_col hv hc)
      · intro i hi j hj
        exact Multiset.coe_eq_coe.mpr (valid_box hv (by omega) (by omega))
    · rintro ⟨hrow, hcol, hbox⟩
      apply valid_of_units
      · intro r hr
        exact Multiset.coe_eq_coe.mp (hrow r hr)
      · intro c hc
        exact Multiset.coe_eq_coe.mp (hcol c hc)
      · intro br bc hbr hbc
        have e1 : 3 * (br / 3) = br := by omega
        have e2 : 3 * (bc / 3) = bc := by omega
        have h := Multiset.coe_eq_coe.mp (hbox (br / 3) (by omega) (bc / 3) (by omega))
        rw [e1, e2] at h
        exact h
  · intro b r c hr hc h0
    cases hv : is_board_valid b with
    | false => rfl
    | true =>
      exfalso
      have := (valid_entries hv hr hc).1
      omega
  · intro b r c r' c' hv hr hc hr' hc' hne hunit
    have hval1 := (valid_entries hv hr' hc').1
    cases hv2 : is_board_valid (setCell b r c (b r' c')) with
    | false => rfl
    | true =>
      exfalso
      have hcons2 := valid_consistent hv2
      have hnz : setCell b r c (b r' c') r c ≠ 0 := by
        rw [setCell_same]
        omega
      have hne' : ¬(r' = r ∧ c' = c) := by
        intro hp
        exact hne (by rw [hp.1, hp.2])
      have happ := hcons2 r hr c hc r' hr' c' hc' hne hunit hnz
      apply happ
      rw [setCell_same, setCell_of_ne _ _ _ _ _ _ hne']

/-- Witness for C5: the empty board fails the validator; changing cell
(0,0) of the Scenario-B grid to the digit at (0,1) (making row 0 hold a
duplicate 3) makes the validator fail. -/
theorem claim_C5_witness :
    is_board_valid emptyBoard = false ∧
    is_board_valid (setCell scenarioB 0 0 (scenarioB 0 1)) = false :=
  ⟨claim_C5_validator_charac.2.1 emptyBoard 0 0 (by decide) (by decide) rfl,
   claim_C5_validator_charac.2.2 scenarioB 0 0 0 1 scenarioB_valid (by decide)
     (by decide) (by decide) (by decide) (by decide) (Or.inl rfl)⟩

/-! ### The generator's removal loop -/

/-- Restoring the backup after a clear gives back the original board. -/
theorem setCell_backup (b : Board) (r c : Nat) :
    setCell (setCell b r c 0) r c (b r c) = b := by
  rw [setCell_cancel, setCell_self]

/-- Every cell of the board produced by the removal loop either keeps its
value or has been cleared to 0. -/
theorem removeLoop_cells (t : Nat) :
    ∀ ps b removed r c, (removeLoop t ps b removed).1 r c = b r c ∨
      (removeLoop t ps b removed).1 r c = 0 := by
  intro ps
  induction ps with
  | nil =>
    intro b removed r c
    left
    rfl
  | cons p rest ih =>
    intro b removed r c
    simp only [removeLoop]
    by_cases hstop : t ≤ removed
    · rw [if_pos hstop]
      left
      rfl
    · rw [if_neg hstop]
      have hclear : ∀ removed2, (removeLoop t rest (setCell b p.1 p.2 0) removed2).1 r c = b r c ∨
          (removeLoop t rest (setCell b p.1 p.2 0) removed2).1 r c = 0 := by
        intro removed2
        rcases ih (setCell b p.1 p.2 0) removed2 r c with h | h
        · by_cases he : r = p.1 ∧ c = p.2
          · right
            rw [h, he.1, he.2, setCell_same]
          · left
            rw [h, setCell_of_ne _ _ _ _ _ _ he]
        · right
          exact h
      by_cases h5 : removed % 5 = 0
      · rw [if_pos h5]
        by_cases hcs : count_solutions (setCell b p.1 p.2 0) 2 = 1
        · rw [if_pos hcs]
          exact hclear (removed + 1)
        · rw [if_neg hcs]
          rw [setCell_backup]
          exact ih b removed r c
      · rw [if_neg h5]
        exact hclear (removed + 1)

/-- The removal loop never exceeds the target count. -/
theorem removeLoop_removed_le (t : Nat) :
    ∀ ps b removed, removed ≤ t → (removeLoop t ps b removed).2 ≤ t := by
  intro ps
  induction ps with
  | nil =>
    intro b removed h
    exact h
  | cons p rest ih =>
    intro b removed h
    simp only [removeLoop]
    by_cases hstop : t ≤ removed
    · rw [if_pos hstop]
      exact h
    · rw [if_neg hstop]
      by_cases h5 : removed % 5 = 0
      · rw [if_pos h5]
        by_cases hcs : count_solutions (setCell b p.1 p.2 0) 2 = 1
        · rw [if_pos hcs]
          exact ih _ _ (by omega)
        · rw [if_neg hcs]
          rw [setCell_backup]
          exact ih b removed h
      · rw [if_neg h5]
        exact ih _ _ (by omega)

/-- Once the target is reached, the removal loop stops: it returns the
state unchanged no matter how many positions remain. -/
theorem removeLoop_stop (t : Nat) :
    ∀ ps b removed, t ≤ removed → removeLoop t ps b removed = (b, removed) := by
  intro ps
  cases ps with
  | nil =>
    intro b removed _
    rfl
  | cons p rest =>
    intro b removed h
    simp only [removeLoop]
    rw [if_pos h]

/-- Exact accounting: each accepted removal clears exactly one currently
filled in-range cell, so filled cells plus accepted removals is invariant. -/
theorem removeLoop_filled_count (t : Nat) :
    ∀ ps b removed, ps.Nodup → (∀ p ∈ ps, p.1 < 9 ∧ p.2 < 9) →
      (∀ p ∈ ps, b p.1 p.2 ≠ 0) →
      numFilled (removeLoop t ps b removed).1 + (removeLoop t ps b removed).2 =
        numFilled b + removed := by
  intro ps
  induction ps with
  | nil =>
    intro b removed _ _ _
    rfl
  | cons p rest ih =>
    intro b removed hnd hmem hnz
    have hnd' := (List.nodup_cons.mp hnd).2
    have hpnotin := (List.nodup_cons.mp hnd).1
    have hmem' := fun q hq => hmem q (List.mem_cons_of_mem p hq)
    have hnz' := fun q hq => hnz q (List.mem_cons_of_mem p hq)
    have hp9 := hmem p (List.mem_cons_self p rest)
    have hpnz := hnz p (List.mem_cons_self p rest)
    simp only [removeLoop]
    by_cases hstop : t ≤ removed
    · rw [if_pos hstop]
    · rw [if_neg hstop]
      have hstep : numFilled b = numFilled (setCell b p.1 p.2 0) + 1 :=
        numFilled_setCell_zero hp9.1 hp9.2 hpnz
      have hrestnz : ∀ q ∈ rest, (setCell b p.1 p.2 0) q.1 q.2 ≠ 0 := by
        intro q hq
        have hqp : ¬(q.1 = p.1 ∧ q.2 = p.2) := by
          intro hc
          exact hpnotin (by rw [← Prod.ext hc.1 hc.2]; exact hq)
        rw [setCell_of_ne _ _ _ _ _ _ hqp]
        exact hnz' q hq
      by_cases h5 : removed % 5 = 0
      · rw [if_pos h5]
        by_cases hcs : count_solutions (setCell b p.1 p.2 0) 2 = 1
        · rw [if_pos hcs]
          have := ih (setCell b p.1 p.2 0) (removed + 1) hnd' hmem' hrestnz
          omega
        · rw [if_neg hcs]
          rw [setCell_backup]
          exact ih b removed hnd' hmem' hnz'
      · rw [if_neg h5]
        have := ih (setCell b p.1 p.2 0) (removed + 1) hnd' hmem' hrestnz
        omega

/-! ### Claim theorems: the puzzle generator (C6, C8, C9) -/

/-- C6: for every generated puzzle, whatever the random choices: the givens
set is exactly the set of in-range non-empty positions of the puzzle grid,
every given cell's digit equals the corresponding cell of the saved
solution grid, and blanking exactly the non-given cells of the solution
reproduces the puzzle cell for cell. -/
theorem claim_C6_puzzle_solution_givens (orders : Nat → List Nat)
    (positions : List (Nat × Nat)) (difficulty : String)
    (puzzle solution : Board) (givens : Finset (Nat × Nat))
    (hgen : generate_puzzle orders positions difficulty = (puzzle, solution, givens)) :
    (∀ p : Nat × Nat, p ∈ givens ↔ p.1 < 9 ∧ p.2 < 9 ∧ puzzle p.1 p.2 ≠ 0) ∧
    (∀ p ∈ givens, puzzle p.1 p.2 = solution p.1 p.2) ∧
    (∀ r c, r < 9 → c < 9 →
      puzzle r c = if (r, c) ∈ givens then solution r c else 0) := by
  have hpuz : (removeLoop (cells_to_remove difficulty) positions
      (generate_solved_board orders) 0).1 = puzzle := congrArg Prod.fst hgen
  have hsol : generate_solved_board orders = solution :=
    congrArg (fun x => x.2.1) hgen
  have hgiv : (Finset.range 9 ×ˢ Finset.range 9).filter
      (fun p => (removeLoop (cells_to_remove difficulty) positions
        (generate_solved_board orders) 0).1 p.1 p.2 ≠ 0) = givens :=
    congrArg (fun x => x.2.2) hgen
  have hmem_iff : ∀ p : Nat × Nat, p ∈ givens ↔
      p.1 < 9 ∧ p.2 < 9 ∧ puzzle p.1 p.2 ≠ 0 := by
    intro p
    rw [← hgiv]
    simp only [Finset.mem_filter, Finset.mem_product, Finset.mem_range, hpuz]
    tauto
  have hgiven_eq : ∀ p ∈ givens, puzzle p.1 p.2 = solution p.1 p.2 := by
    intro p hp
    have hnz := (hmem_iff p).mp hp
    rcases removeLoop_cells (cells_to_remove difficulty) positions
      (generate_solved_board orders) 0 p.1 p.2 with h | h
    · rw [hpuz, hsol] at h
      exact h
    · rw [hpuz] at h
      exact absurd h hnz.2.2
  refine ⟨hmem_iff, hgiven_eq, ?_⟩
  intro r c hr hc
  by_cases hm : (r, c) ∈ givens
  · rw [if_pos hm]
    exact hgiven_eq (r, c) hm
  · rw [if_neg hm]
    have := hmem_iff (r, c)
    simp only [not_iff] at this
    by_contra hnz
    exact hm (this.mpr ⟨hr, hc, hnz⟩)

/-- Witness for C6: identity order, row-major positions, easy difficulty. -/
theorem claim_C6_witness :
    (∀ p : Nat × Nat,
      p ∈ (Finset.range 9 ×ˢ Finset.range 9).filter
        (fun p => (removeLoop (cells_to_remove "easy") allPositions
          (generate_solved_board (fun _ => digits19)) 0).1 p.1 p.2 ≠ 0) ↔
      p.1 < 9 ∧ p.2 < 9 ∧
        (removeLoop (cells_to_remove "easy") allPositions
          (generate_solved_board (fun _ => digits19)) 0).1 p.1 p.2 ≠ 0) ∧
    (∀ p ∈ (Finset.range 9 ×ˢ Finset.range 9).filter
        (fun p => (removeLoop (cells_to_remove "easy") allPositions
          (generate_solved_board (fun _ => digits19)) 0).1 p.1 p.2 ≠ 0),
      (removeLoop (cells_to_remove "easy") allPositions
        (generate_solved_board (fun _ => digits19)) 0).1 p.1 p.2 =
      generate_solved_board (fun _ => digits19) p.1 p.2) ∧
    (∀ r c, r < 9 → c < 9 →
      (removeLoop (cells_to_remove "easy") allPositions
        (generate_solved_board (fun _ => digits19)) 0).1 r c =
      if (r, c) ∈ (Finset.range 9 ×ˢ Finset.range 9).filter
          (fun p => (removeLoop (cells_to_remove "easy") allPositions
            (generate_solved_board (fun _ => digits19)) 0).1 p.1 p.2 ≠ 0)
      then generate_solved_board (fun _ => digits19) r c
      else 0) :=
  claim_C6_puzzle_solution_givens (fun _ => digits19) allPositions "easy"
    (removeLoop (cells_to_remove "easy") allPositions
      (generate_solved_board (fun _ => digits19)) 0).1
    (generate_solved_board (fun _ => digits19))
    ((Finset.range 9 ×ˢ Finset.range 9).filter
      (fun p => (removeLoop (cells_to_remove "easy") allPositions
        (generate_solved_board (fun _ => digits19)) 0).1 p.1 p.2 ≠ 0)) rfl

/-- C8: one step of the removal loop, below the target: on a sampled
attempt (`removed % 5 = 0`) the tentative clear is kept and counted exactly
when `count_solutions` with limit 2 (run on the cleared state, which the
counter leaves untouched) returns 1, and otherwise the prior value is
restored and the attempt is not counted; on a non-sampled attempt the clear
is accepted and counted unconditionally, with no uniqueness check. -/
theorem claim_C8_sampled_uniqueness_policy (t : Nat) (p : Nat × Nat)
    (ps : List (Nat × Nat)) (b : Board) (removed : Nat) (hrun : removed < t) :
    (removed % 5 = 0 →
      removeLoop t (p :: ps) b removed =
        (if count_solutions (setCell b p.1 p.2 0) 2 = 1
         then removeLoop t ps (setCell b p.1 p.2 0) (removed + 1)
         else removeLoop t ps b removed)) ∧
    (removed % 5 ≠ 0 →
      removeLoop t (p :: ps) b removed =
        removeLoop t ps (setCell b p.1 p.2 0) (removed + 1)) := by
  constructor
  · intro h5
    simp only [removeLoop]
    rw [if_neg (by omega), if_pos h5, setCell_backup]
  · intro h5
    simp only [removeLoop]
    rw [if_neg (by omega), if_neg h5]

/-- Witness for C8: a sampled and a non-sampled step at concrete state. -/
theorem claim_C8_witness :
    removeLoop 40 ((0, 0) :: []) scenarioB 0 =
      (if count_solutions (setCell scenarioB 0 0 0) 2 = 1
       then removeLoop 40 [] (setCell scenarioB 0 0 0) 1
       else removeLoop 40 [] scenarioB 0) ∧
    removeLoop 40 ((0, 0) :: []) scenarioB 1 =
      removeLoop 40 [] (setCell scenarioB 0 0 0) 2 :=
  ⟨(claim_C8_sampled_uniqueness_policy 40 (0, 0) [] scenarioB 0 (by decide)).1 (by decide),
   (claim_C8_sampled_uniqueness_policy 40 (0, 0) [] scenarioB 1 (by decide)).2 (by decide)⟩

/-- C9: the difficulty table maps easy/medium/hard to 40/50/55 cells to
clear; the removal loop never accepts more than the target; filled cells
plus accepted removals always account exactly for all 81 cells (so the
puzzle has `81 - removed` filled cells); for "easy", if the loop reached
its target of 40 removals, the puzzle has exactly 41 filled cells; and once
the target is reached the loop stops, leaving any remaining positions
unattempted. -/
theorem claim_C9_removal_targets (orders : Nat → List Nat)
    (hperm : ∀ k, (orders k).Perm digits19) (positions : List (Nat × Nat))
    (hpos : positions.Perm allPositions) (difficulty : String) :
    (cells_to_remove "easy" = 40 ∧ cells_to_remove "medium" = 50 ∧
      cells_to_remove "hard" = 55) ∧
    (removeLoop (cells_to_remove difficulty) positions
      (generate_solved_board orders) 0).2 ≤ cells_to_remove difficulty ∧
    numFilled (generate_puzzle orders positions difficulty).1 +
      (removeLoop (cells_to_remove difficulty) positions
        (generate_solved_board orders) 0).2 = 81 ∧
    (difficulty = "easy" →
      (removeLoop (cells_to_remove difficulty) positions
        (generate_solved_board orders) 0).2 = 40 →
      numFilled (generate_puzzle orders positions difficulty).1 = 41) ∧
    (∀ ps b removed, cells_to_remove difficulty ≤ removed →
      removeLoop (cells_to_remove difficulty) ps b removed = (b, removed)) := by
  have hfill : is_board_filled (generate_solved_board orders) = true :=
    (solve_board_empty_spec orders hperm).2.2
  have h81 : numFilled (generate_solved_board orders) = 81 := numFilled_of_filled hfill
  have hnd : positions.Nodup := hpos.nodup_iff.mpr allPositions_nodup
  have hmem : ∀ p ∈ positions, p.1 < 9 ∧ p.2 < 9 :=
    fun p hp => mem_allPositions.mp (hpos.subset hp)
  have hnz : ∀ p ∈ positions, generate_solved_board orders p.1 p.2 ≠ 0 :=
    fun p hp => is_board_filled_iff.mp hfill p.1 (hmem p hp).1 p.2 (hmem p hp).2
  have hacc := removeLoop_filled_count (cells_to_remove difficulty) positions
    (generate_solved_board orders) 0 hnd hmem hnz
  have hpz : (generate_puzzle orders positions difficulty).1 =
      (removeLoop (cells_to_remove difficulty) positions
        (generate_solved_board orders) 0).1 := rfl
  refine ⟨⟨rfl, rfl, rfl⟩, ?_, ?_, ?_, ?_⟩
  · exact removeLoop_removed_le _ positions _ 0 (Nat.zero_le _)
  · rw [hpz]
    omega
  · intro _ h40
    rw [hpz]
    omega
  · exact removeLoop_stop _

/-- Witness for C9: identity order, row-major positions, easy difficulty. -/
theorem claim_C9_witness :
    (cells_to_remove "easy" = 40 ∧ cells_to_remove "medium" = 50 ∧
      cells_to_remove "hard" = 55) ∧
    (removeLoop (cells_to_remove "easy") allPositions
      (generate_solved_board (fun _ => digits19)) 0).2 ≤ cells_to_remove "easy" ∧
    numFilled (generate_puzzle (fun _ => digits19) allPositions "easy").1 +
      (removeLoop (cells_to_remove "easy") allPositions
        (generate_solved_board (fun _ => digits19)) 0).2 = 81 ∧
    ("easy" = "easy" →
      (removeLoop (cells_to_remove "easy") allPositions
        (generate_solved_board (fun _ => digits19)) 0).2 = 40 →
      numFilled (generate_puzzle (fun _ => digits19) allPositions "easy").1 = 41) ∧
    (∀ ps b removed, cells_to_remove "easy" ≤ removed →
      removeLoop (cells_to_remove "easy") ps b removed = (b, removed)) :=
  claim_C9_removal_targets (fun _ => digits19) (fun _ => List.Perm.refl digits19)
    allPositions (List.Perm.refl allPositions) "easy"
